import Mathlib

/-!
Verification of the caching / incremental-discovery engine of `ccusage-go`
(`main.go`, latest version).  Go values are shallowly embedded:

* Go `int` / `int64` become `Int` (no arithmetic here comes near 2^63, so
  overflow reduction is irrelevant);
* Go maps become association lists in a fixed (but arbitrary, since
  universally quantified) enumeration order; `map[k] = v` becomes a
  replace-or-append update, `delete` becomes a filter;
* fallible OS calls (`os.Stat`, `os.Open`, `os.ReadFile`) become
  `Option`-valued fields of an explicit filesystem model;
* `encoding/json.Unmarshal` of one line into a `LogEntry` becomes an
  `Option LogEntry` input (the stdlib parser itself is external code);
* `time.Parse(time.RFC3339, ·)` and `t.Local().Format("2006-01-02")` are
  embedded concretely (civil-date arithmetic, local zone passed as an
  offset in seconds).
-/

/-- Usage block of one parsed JSONL line (`LogEntry.Message.Usage` in
`main.go`); absent JSON fields decode to zero, which the embedding covers
because all values are quantified. -/
structure UsageTok where
  inputTokens : Int
  outputTokens : Int
  cacheCreationTokens : Int
  cacheReadTokens : Int
  deriving DecidableEq, Repr

/-- One JSONL line as decoded by `json.Unmarshal` into the Go `LogEntry`
struct (`main.go` lines 20-33); the nested `Message` struct is flattened:
`msgID`/`model`/`usage` are `Message.ID`/`Message.Model`/`Message.Usage`.
Absent JSON fields decode to `""`/`0`. -/
structure LogEntry where
  timestamp : String
  requestID : String
  msgID : String
  model : String
  usage : UsageTok
  deriving DecidableEq, Repr

/-- `EntryData` of `main.go` lines 222-230: one deduplicated usage record. -/
structure EntryData where
  key : String
  date : String
  model : String
  inputTokens : Int
  outputTokens : Int
  cacheCreationTokens : Int
  cacheReadTokens : Int
  deriving DecidableEq, Repr

/-- `entryTotalTokens` (`main.go` lines 554-556). -/
def entryTotalTokens (e : EntryData) : Int :=
  e.inputTokens + e.outputTokens + e.cacheCreationTokens + e.cacheReadTokens

/-- `FileStats` (`main.go` lines 232-236). -/
structure FileStats where
  linesRead : Nat
  linesParsed : Nat
  entriesNew : Nat
  deriving DecidableEq, Repr

/-- `FileCacheEntry` (`main.go` lines 243-247). -/
structure FileCacheEntry where
  modTime : Int
  size : Int
  entries : List EntryData
  deriving DecidableEq, Repr

/-- `CacheFile` (`main.go` lines 249-255).  `files` and `dirs` are Go maps,
embedded as association lists; `lastFullWalk` is a `time.Time` embedded as
nanoseconds. -/
structure CacheFile where
  version : Int
  timezone : String
  files : List (String × FileCacheEntry)
  dirs : List (String × Int)
  lastFullWalk : Int
  deriving DecidableEq, Repr

/-- `CacheVersion` (`main.go` line 239). -/
def CacheVersion : Int := 2

/-- First binding of a key in an association list (Go map read `m[k]`,
with the runtime invariant that keys are unique). -/
def lookupKey {α : Type} (l : List (String × α)) (k : String) : Option α :=
  match l with
  | [] => none
  | (k₁, v) :: t => if k₁ == k then some v else lookupKey t k

/-- Go map write `m[k] = v`: replace the binding if the key is present,
append it otherwise. -/
def setKey {α : Type} (l : List (String × α)) (k : String) (v : α) :
    List (String × α) :=
  match l with
  | [] => [(k, v)]
  | (k₁, v₁) :: t => if k₁ == k then (k, v) :: t else (k₁, v₁) :: setKey t k v

/-- Read of the merged-records map `allEntries[e.Key]`: the map is keyed by
`e.Key`, so it is embedded as a list of records searched by their `key`
field. -/
def findByKey (l : List EntryData) (k : String) : Option EntryData :=
  match l with
  | [] => none
  | e :: t => if e.key == k then some e else findByKey t k

/-- Go map write `allEntries[e.Key] = e`: replace the record holding this
key (keys are unique at runtime, so replacing the first match is the map
update). -/
def replaceByKey (l : List EntryData) (e : EntryData) : List EntryData :=
  match l with
  | [] => []
  | x :: t => if x.key == e.key then e :: t else x :: replaceByKey t e

/-- Accumulator of the merge loops of `processWithCacheLoaded`: the
`allEntries` map plus the `conflicts` and `totalNew` counters of
`cacheStats`. -/
structure MState where
  entries : List EntryData
  conflicts : Nat
  totalNew : Nat
  deriving DecidableEq, Repr

/-- The per-record upsert shared verbatim by phase 1 (cache hits,
`main.go` lines 596-607) and phase 3 (parsed misses, lines 658-669):
if the key is present, the incoming record replaces the existing one only
when its token total is strictly greater (counting a conflict); a fresh
key is inserted (counting it as new). -/
def mergeOne (st : MState) (e : EntryData) : MState :=
  match findByKey st.entries e.key with
  | some existing =>
      if entryTotalTokens e > entryTotalTokens existing then
        { st with entries := replaceByKey st.entries e,
                  conflicts := st.conflicts + 1 }
      else st
  | none =>
      { st with entries := st.entries ++ [e], totalNew := st.totalNew + 1 }

/-- Merging a slice of records (`for i := range … { merge }`). -/
def mergeList (st : MState) (l : List EntryData) : MState :=
  l.foldl mergeOne st

/-! Embedding of `time.Parse(time.RFC3339, …)` and
`t.Local().Format("2006-01-02")` (Go standard library, used by
`processFileForCache` at `main.go` lines 520-524).  The parser accepts
exactly the RFC3339 shape of the Go layout `2006-01-02T15:04:05Z07:00`:
four-digit year, range-checked month/day/hour/minute/second, literal
separators, an optional fractional second introduced by `.` or `,` with at
least one digit, and a zone that is either `Z` or `±hh:mm`. -/

/-- Decimal digit test on a character. -/
def isDigitCh (c : Char) : Bool := decide ('0' ≤ c) && decide (c ≤ '9')

/-- Numeric value of a decimal digit character. -/
def digitVal (c : Char) : Nat := c.toNat - 48

/-- Read exactly two digits. -/
def take2 : List Char → Option (Nat × List Char)
  | a :: b :: rest =>
      if isDigitCh a && isDigitCh b then
        some (10 * digitVal a + digitVal b, rest)
      else none
  | _ => none

/-- Read exactly four digits. -/
def take4 : List Char → Option (Nat × List Char)
  | a :: b :: c :: d :: rest =>
      if isDigitCh a && isDigitCh b && isDigitCh c && isDigitCh d then
        some (1000 * digitVal a + 100 * digitVal b + 10 * digitVal c +
          digitVal d, rest)
      else none
  | _ => none

/-- Consume one expected literal character. -/
def expectCh (c : Char) : List Char → Option (List Char)
  | x :: rest => if x == c then some rest else none
  | [] => none

/-- Consume an optional fractional second: `.` or `,` followed by at least
one digit; a separator without a digit is a parse error. -/
def dropFrac : List Char → Option (List Char)
  | [] => some []
  | c :: rest =>
      if c == '.' || c == ',' then
        match rest with
        | d :: _ => if isDigitCh d then some (rest.dropWhile isDigitCh) else none
        | [] => none
      else some (c :: rest)

/-- Parse the zone suffix (`Z` or `±hh:mm`), requiring end of input after
it; the result is the zone offset in seconds east of UTC. -/
def parseZone : List Char → Option Int
  | ['Z'] => some 0
  | '+' :: rest => parseZoneHM 1 rest
  | '-' :: rest => parseZoneHM (-1) rest
  | _ => none
where
  parseZoneHM (sgn : Int) (cs : List Char) : Option Int :=
    match take2 cs with
    | none => none
    | some (hh, cs) =>
        match expectCh ':' cs with
        | none => none
        | some cs =>
            match take2 cs with
            | none => none
            | some (mm, cs) =>
                if cs.isEmpty && hh ≤ 23 && mm ≤ 59 then
                  some (sgn * (hh * 3600 + mm * 60))
                else none

/-- Gregorian leap-year rule. -/
def leapYear (y : Nat) : Bool := y % 4 == 0 && (y % 100 != 0 || y % 400 == 0)

/-- Length of a month, as validated by Go `time.Parse`. -/
def daysInMonth (y m : Nat) : Nat :=
  if m == 2 then (if leapYear y then 29 else 28)
  else if m == 4 || m == 6 || m == 9 || m == 11 then 30
  else 31

/-- A parsed RFC3339 timestamp: civil components plus zone offset. -/
structure Ts where
  year : Nat
  month : Nat
  day : Nat
  hour : Nat
  minute : Nat
  second : Nat
  offset : Int
  deriving DecidableEq, Repr

/-- `time.Parse(time.RFC3339, s)`, embedded: `some` exactly when Go
returns no error. -/
def parseRFC3339 (s : String) : Option Ts :=
  match take4 s.data with
  | none => none
  | some (y, cs) =>
  match expectCh '-' cs with
  | none => none
  | some cs =>
  match take2 cs with
  | none => none
  | some (mo, cs) =>
  match expectCh '-' cs with
  | none => none
  | some cs =>
  match take2 cs with
  | none => none
  | some (d, cs) =>
  match expectCh 'T' cs with
  | none => none
  | some cs =>
  match take2 cs with
  | none => none
  | some (h, cs) =>
  match expectCh ':' cs with
  | none => none
  | some cs =>
  match take2 cs with
  | none => none
  | some (mi, cs) =>
  match expectCh ':' cs with
  | none => none
  | some cs =>
  match take2 cs with
  | none => none
  | some (sec, cs) =>
  match dropFrac cs with
  | none => none
  | some cs =>
  match parseZone cs with
  | none => none
  | some off =>
      if 1 ≤ mo && mo ≤ 12 && 1 ≤ d && d ≤ daysInMonth y mo &&
          h ≤ 23 && mi ≤ 59 && sec ≤ 59 then
        some ⟨y, mo, d, h, mi, sec, off⟩
      else none

/-- Days since 1970-01-01 of a civil date (standard civil-calendar
conversion; intermediate divisions are C-style truncating divisions, which
Lean `Int` division matches). -/
def daysFromCivil (y0 m d : Int) : Int :=
  let y := if m ≤ 2 then y0 - 1 else y0
  let era := (if 0 ≤ y then y else y - 399) / 400
  let yoe := y - era * 400
  let doy := (153 * (if 2 < m then m - 3 else m + 9) + 2) / 5 + d - 1
  let doe := yoe * 365 + yoe / 4 - yoe / 100 + doy
  era * 146097 + doe - 719468

/-- Civil date of a days-since-epoch count (inverse of `daysFromCivil`). -/
def civilFromDays (z0 : Int) : Int × Nat × Nat :=
  let z := z0 + 719468
  let era := (if 0 ≤ z then z else z - 146096) / 146097
  let doe := z - era * 146097
  let yoe := (doe - doe / 1460 + doe / 36524 - doe / 146096) / 365
  let y := yoe + era * 400
  let doy := doe - (365 * yoe + yoe / 4 - yoe / 100)
  let mp := (5 * doy + 2) / 153
  let d := doy - (153 * mp + 2) / 5 + 1
  let m := if mp < 10 then mp + 3 else mp - 9
  ((if m ≤ 2 then y + 1 else y), m.toNat, d.toNat)

/-- Zero-padded two-digit decimal (the `01`/`02` layout fields). -/
def pad2 (n : Nat) : String := if n < 10 then "0" ++ toString n else toString n

/-- Zero-padded four-digit year (the `2006` layout field). -/
def pad4 (n : Nat) : String :=
  if n < 10 then "000" ++ toString n
  else if n < 100 then "00" ++ toString n
  else if n < 1000 then "0" ++ toString n
  else toString n

/-- Year rendering of Go `Format` (negative years with a leading sign). -/
def yearStr (y : Int) : String :=
  if y < 0 then "-" ++ pad4 (-y).toNat else pad4 y.toNat

/-- `t.Local().Format("2006-01-02")`: convert the parsed timestamp to the
local zone (`loc` = local offset in seconds east of UTC, a run parameter)
and print the civil date. -/
def tsLocalDate (loc : Int) (t : Ts) : String :=
  let epochDay := daysFromCivil t.year t.month t.day
  let secs := epochDay * 86400 +
    (t.hour : Int) * 3600 + (t.minute : Int) * 60 + (t.second : Int) - t.offset
  let localDay := Int.fdiv (secs + loc) 86400
  let c := civilFromDays localDay
  yearStr c.1 ++ "-" ++ pad2 c.2.1 ++ "-" ++ pad2 c.2.2

/-- The per-line body of the scan loop of `processFileForCache`
(`main.go` lines 507-528), up to but excluding the dedup-map insert: the
skip guards, dedup-key construction, timestamp parsing, date bucketing and
model defaulting.  Returns the candidate record of the line, or `none`
when the line is skipped. -/
def lineRecord (loc : Int) (e : LogEntry) : Option EntryData :=
  if e.timestamp == "" || (e.usage.inputTokens == 0 && e.usage.outputTokens == 0) then
    none
  else if e.msgID == "" || e.requestID == "" then
    none
  else
    match parseRFC3339 e.timestamp with
    | none => none
    | some t =>
        some { key := e.msgID ++ ":" ++ e.requestID,
               date := tsLocalDate loc t,
               model := if e.model == "" then "unknown" else e.model,
               inputTokens := e.usage.inputTokens,
               outputTokens := e.usage.outputTokens,
               cacheCreationTokens := e.usage.cacheCreationTokens,
               cacheReadTokens := e.usage.cacheReadTokens }

/-- One raw line: `none` when `json.Unmarshal` fails on it, otherwise the
decoded `LogEntry`.  `parseLine` is the full per-line pipeline including
the JSON step. -/
def parseLine (loc : Int) (l : Option LogEntry) : Option EntryData :=
  l.bind (lineRecord loc)

/-- One iteration of the scan loop of `processFileForCache`
(`main.go` lines 505-542), threading the accumulated dedup map (first
occurrence of a key wins) and the line counters. -/
def processLinesStep (loc : Int) (acc : List EntryData × FileStats)
    (l : Option LogEntry) : List EntryData × FileStats :=
  let es := acc.1
  let st : FileStats := { acc.2 with linesRead := acc.2.linesRead + 1 }
  match l with
  | none => (es, st)
  | some e =>
      let st := { st with linesParsed := st.linesParsed + 1 }
      match lineRecord loc e with
      | none => (es, st)
      | some r =>
          if (findByKey es r.key).isSome then (es, st)
          else (es ++ [r], { st with entriesNew := st.entriesNew + 1 })

/-- The scan loop over all lines of one file. -/
def processLines (loc : Int) (ls : List (Option LogEntry)) :
    List EntryData × FileStats :=
  ls.foldl (processLinesStep loc) ([], ⟨0, 0, 0⟩)

/-- The filesystem as seen by the program: `statFile` is `os.Stat` on a
file path giving `(ModTime().UnixNano(), Size())`; `statDir` is `os.Stat`
on a directory path giving `ModTime().UnixNano()`; `openFile` is
`os.Open` + line scanning, `none` when the open fails; `walkFS` is the
`filepath.WalkDir` traversal shared by `fullWalkJSONL` and `walkSubtree`,
giving the `.jsonl` files in walk order and the directory mtimes. -/
structure FSModel where
  statFile : String → Option (Int × Int)
  statDir : String → Option Int
  openFile : String → Option (List (Option LogEntry))
  walkFS : String → List String × List (String × Int)

/-- `processFileForCache` (`main.go` lines 491-544): an unopenable file
yields the empty map and zero counters with no error; otherwise the scan
loop runs.  The returned list holds the dedup map's records in insertion
order (Go iterates this map in unspecified order; only phase 3's
cross-file merge consumes it, where within-file order is irrelevant
because keys are unique within a file). -/
def processFileForCache (fs : FSModel) (loc : Int) (path : String) :
    List EntryData × FileStats :=
  match fs.openFile path with
  | none => ([], ⟨0, 0, 0⟩)
  | some ls => processLines loc ls

/-- `cacheStats` (`main.go` lines 546-552). -/
structure CacheStats where
  hits : Nat
  misses : Nat
  totalLines : Nat
  totalNew : Nat
  conflicts : Nat
  deriving DecidableEq, Repr

/-- Phase-1 accumulator of `processWithCacheLoaded`: the merged map (with
its `totalNew`/`conflicts` counters), the queued misses and the hit
counter.  `existingFiles` needs no field: every iterated path is recorded
before its stat, so the set is exactly the discovered file list. -/
structure Phase1St where
  ms : MState
  missQ : List (String × Int × Int)
  hits : Nat
  deriving DecidableEq, Repr

/-- One phase-1 iteration (`main.go` lines 584-612): a failed stat skips
the file; a valid unchanged cache entry is merged as a hit; anything else
is queued as a miss with its fresh `(mtime, size)`. -/
def phase1Step (fs : FSModel) (cache : CacheFile) (cacheValid : Bool)
    (s : Phase1St) (path : String) : Phase1St :=
  match fs.statFile path with
  | none => s
  | some (mtime, size) =>
      match lookupKey cache.files path with
      | some cached =>
          if cacheValid && (cached.modTime == mtime) && (cached.size == size) then
            { s with ms := mergeList s.ms cached.entries, hits := s.hits + 1 }
          else
            { s with missQ := s.missQ ++ [(path, mtime, size)] }
      | none => { s with missQ := s.missQ ++ [(path, mtime, size)] }

/-- Phase 1: the sequential scan over the discovered files. -/
def phase1 (fs : FSModel) (cache : CacheFile) (cacheValid : Bool)
    (files : List String) : Phase1St :=
  files.foldl (phase1Step fs cache cacheValid) ⟨⟨[], 0, 0⟩, [], 0⟩

/-- The miss decision of one phase-1 iteration, per file (specification
helper: `phase1` queues exactly the files this classifies as misses). -/
def classifyMiss (fs : FSModel) (cache : CacheFile) (cacheValid : Bool)
    (path : String) : Option (String × Int × Int) :=
  match fs.statFile path with
  | none => none
  | some (mtime, size) =>
      match lookupKey cache.files path with
      | some cached =>
          if cacheValid && (cached.modTime == mtime) && (cached.size == size) then
            none
          else some (path, mtime, size)
      | none => some (path, mtime, size)

/-- The hit decision of one phase-1 iteration, per file (specification
helper). -/
def isHitFile (fs : FSModel) (cache : CacheFile) (cacheValid : Bool)
    (path : String) : Bool :=
  match fs.statFile path with
  | none => false
  | some (mtime, size) =>
      match lookupKey cache.files path with
      | some cached =>
          cacheValid && (cached.modTime == mtime) && (cached.size == size)
      | none => false

/-- A file the run can fully read: stat and open both succeed. -/
def readable (fs : FSModel) (path : String) : Bool :=
  (fs.statFile path).isSome && (fs.openFile path).isSome

/-- Phase-3 accumulator: merged map, cache under rewrite, `totalLines`. -/
structure Phase3St where
  ms : MState
  cache : CacheFile
  totalLines : Nat
  deriving DecidableEq, Repr

/-- One phase-3 iteration (`main.go` lines 655-675): merge the parse
result of one miss (phase 2 parsed it; the parse is a pure function of
the path, so the concurrent phase is observationally this sequential
call) and rewrite its cache entry with the stat captured in phase 1. -/
def phase3Step (fs : FSModel) (loc : Int) (s : Phase3St)
    (miss : String × Int × Int) : Phase3St :=
  let r := processFileForCache fs loc miss.1
  { ms := mergeList s.ms r.1,
    cache := { s.cache with
      files := setKey s.cache.files miss.1 ⟨miss.2.1, miss.2.2, r.1⟩ },
    totalLines := s.totalLines + r.2.linesRead }

/-- Result of `processWithCacheLoaded`: the merged records, the stats, the
dirty flag and the updated cache; `missQ` additionally exposes which files
were queued for re-parsing (phase 2 parses exactly these). -/
structure ProcResult where
  entries : List EntryData
  stats : CacheStats
  dirty : Bool
  cacheOut : CacheFile
  missQ : List (String × Int × Int)
  deriving DecidableEq, Repr

/-- `processWithCacheLoaded` (`main.go` lines 559-686): phase-1 scan,
phase-2/3 parse-and-merge of the misses in submission order, cleanup of
cache entries whose files are no longer among the discovered ones, and
the dirty flag (invalid cache at start, any miss, or any removal). -/
def processWithCacheLoaded (fs : FSModel) (loc : Int) (files : List String)
    (cache : CacheFile) (cacheValid : Bool) : ProcResult :=
  let p1 := phase1 fs cache cacheValid files
  let dirty₁ := !cacheValid || !p1.missQ.isEmpty
  let p3 := p1.missQ.foldl (phase3Step fs loc) ⟨p1.ms, cache, 0⟩
  let removed := p3.cache.files.filter (fun pe => !(files.contains pe.1))
  let kept := p3.cache.files.filter (fun pe => files.contains pe.1)
  { entries := p3.ms.entries,
    stats := ⟨p1.hits, p1.missQ.length, p3.totalLines, p3.ms.totalNew,
      p3.ms.conflicts⟩,
    dirty := dirty₁ || !removed.isEmpty,
    cacheOut := { p3.cache with files := kept },
    missQ := p1.missQ }

/-! Persistence codec (`saveCache` / `loadCache`, `main.go` lines
353-488).  The gob layer is Go stdlib and is modelled as the identity on
the structured payload; the 4-byte magic and the little-endian uint32
version are kept by value. -/

/-- `EncodedEntry` (`main.go` lines 271-279). -/
structure EncodedEntry where
  key : String
  dateIdx : Int
  modelIdx : Int
  inputTokens : Int
  outputTokens : Int
  cacheCreationTokens : Int
  cacheReadTokens : Int
  deriving DecidableEq, Repr

/-- `EncodedFileCacheEntry` (`main.go` lines 265-269). -/
structure EncodedFileCacheEntry where
  modTime : Int
  size : Int
  entries : List EncodedEntry
  deriving DecidableEq, Repr

/-- `EncodedCache` (`main.go` lines 258-263). -/
structure EncodedCache where
  stringTable : List String
  files : List (String × EncodedFileCacheEntry)
  dirs : List (String × Int)
  lastFullWalk : Int
  deriving DecidableEq, Repr

/-- The bytes written by `saveCache`, at structure level: magic tag,
version word, gob payload. -/
structure CacheBytes where
  magic : List Nat
  version : Int
  payload : EncodedCache
  deriving DecidableEq, Repr

/-- `cacheMagic` (`main.go` line 241), as byte values `C C U G`. -/
def cacheMagic : List Nat := [67, 67, 85, 71]

/-- First index of a string in the table (`stringIndex` in `saveCache`
maps each interned string to its first index). -/
def tableIdx (t : List String) (s : String) : Option Nat :=
  match t with
  | [] => none
  | x :: rest => if x == s then some 0 else (tableIdx rest s).map (· + 1)

/-- `intern` (`main.go` lines 428-436): return the existing index, or
append the string at the end of the table. -/
def intern (t : List String) (s : String) : List String × Int :=
  match tableIdx t s with
  | some i => (t, (i : Int))
  | none => (t ++ [s], (t.length : Int))

/-- Encoding of one record (`main.go` lines 450-458): dates and models
are replaced by interned indices, the key and counters kept inline. -/
def encodeEntry (t : List String) (e : EntryData) :
    List String × EncodedEntry :=
  let d := intern t e.date
  let m := intern d.1 e.model
  (m.1, ⟨e.key, d.2, m.2, e.inputTokens, e.outputTokens,
    e.cacheCreationTokens, e.cacheReadTokens⟩)

/-- Encoding of a record slice, threading the table left to right. -/
def encodeEntries (t : List String) :
    List EntryData → List String × List EncodedEntry
  | [] => (t, [])
  | e :: es =>
      let r := encodeEntry t e
      let rest := encodeEntries r.1 es
      (rest.1, r.2 :: rest.2)

/-- Encoding of the file-entry map (`main.go` lines 447-465). -/
def encodeFiles (t : List String) :
    List (String × FileCacheEntry) →
      List String × List (String × EncodedFileCacheEntry)
  | [] => (t, [])
  | (path, fe) :: rest =>
      let r := encodeEntries t fe.entries
      let rr := encodeFiles r.1 rest
      (rr.1, (path, ⟨fe.modTime, fe.size, r.2⟩) :: rr.2)

/-- `saveCache`'s encoding (`main.go` lines 425-477): the timezone is
interned first (reserved index 0), then every file's entries; the header
carries the magic and the constant `CacheVersion`. -/
def encodeCache (c : CacheFile) : CacheBytes :=
  let t₀ := intern [] c.timezone
  let r := encodeFiles t₀.1 c.files
  ⟨cacheMagic, CacheVersion, ⟨r.1, r.2, c.dirs, c.lastFullWalk⟩⟩

/-- String-table read of `loadCache` (`main.go` lines 392-399): an index
in range yields the table entry, anything else the empty string. -/
def deintern (t : List String) (i : Int) : String :=
  if 0 ≤ i then (t.get? i.toNat).getD "" else ""

/-- Decoding of one record (`main.go` lines 400-408). -/
def decodeEntry (t : List String) (ee : EncodedEntry) : EntryData :=
  ⟨ee.key, deintern t ee.dateIdx, deintern t ee.modelIdx, ee.inputTokens,
    ee.outputTokens, ee.cacheCreationTokens, ee.cacheReadTokens⟩

/-- Decoding of one file entry (`main.go` lines 389-415). -/
def decodeFile (t : List String) (fe : EncodedFileCacheEntry) :
    FileCacheEntry :=
  ⟨fe.modTime, fe.size, fe.entries.map (decodeEntry t)⟩

/-- `loadCache` on current-format bytes (`main.go` lines 359-416): bytes
with a wrong magic or version are rejected (the caller then falls back to
the legacy path or to a rebuild); otherwise the payload is de-interned,
the timezone coming from reserved index 0 when the table is non-empty. -/
def decodeCache (b : CacheBytes) : Option CacheFile :=
  if b.magic = cacheMagic ∧ b.version = CacheVersion then
    some ⟨b.version,
      (match b.payload.stringTable with
       | [] => ""
       | s :: _ => s),
      b.payload.files.map
        (fun pf => (pf.1, decodeFile b.payload.stringTable pf.2)),
      b.payload.dirs, b.payload.lastFullWalk⟩
  else none

/-! Effect model of `saveCache` (`main.go` lines 419-488): the call's
filesystem effects in program order, with each fallible step's outcome
supplied by the environment. -/

/-- Filesystem state at the cache location: presence of the legacy
`cache.json`, content of `cache.bin`, content of `cache.bin.tmp`. -/
structure CacheWorld where
  legacyPresent : Bool
  cacheBin : Option CacheBytes
  tmpFile : Option CacheBytes
  deriving DecidableEq, Repr

/-- Which of `saveCache`'s fallible steps fail in this run (`os.MkdirAll`,
`gob` encode, `os.WriteFile` of the temp file, `os.Rename`). -/
structure SaveFailures where
  mkdirFails : Bool
  encodeFails : Bool
  writeTmpFails : Bool
  renameFails : Bool
  deriving DecidableEq, Repr

/-- `saveCache` as a state transition, following the source order exactly:
mkdir; encode; write `cache.bin.tmp`; `os.Remove` the legacy JSON cache
(`main.go` line 485); `os.Rename` the temp file onto `cache.bin` (line
487).  An early failure returns the error without touching the world (a
failed temp write is modelled as writing nothing); the result Bool is
`true` iff the call returns nil. -/
def saveCacheRun (c : CacheFile) (w : CacheWorld) (f : SaveFailures) :
    CacheWorld × Bool :=
  if f.mkdirFails then (w, false)
  else if f.encodeFails then (w, false)
  else if f.writeTmpFails then (w, false)
  else
    let w₁ : CacheWorld := { w with tmpFile := some (encodeCache c) }
    let w₂ : CacheWorld := { w₁ with legacyPresent := false }
    if f.renameFails then (w₂, false)
    else ({ w₂ with cacheBin := some (encodeCache c), tmpFile := none }, true)

/-! Discovery (`fullWalkJSONL`, `walkSubtree`, `minimalRoots`,
`findJSONLFiles`, `main.go` lines 65-219) and the `main` wiring
(`main.go` lines 786-855). -/

/-- Go string `<`: byte-wise lexicographic comparison (UTF-8 byte order
coincides with code-point order, so characters are compared). -/
def charsLt : List Char → List Char → Bool
  | [], [] => false
  | [], _ :: _ => true
  | _ :: _, [] => false
  | a :: as, b :: bs =>
      if a < b then true else if b < a then false else charsLt as bs

/-- `s < t` on strings, as Go compares them. -/
def strLt (s t : String) : Bool := charsLt s.data t.data

/-- `s ≤ t` on strings. -/
def strLe (s t : String) : Bool := !(strLt t s)

/-- `sort.Strings`, realised as insertion sort (any correct sort of a
duplicate-free list yields the same ascending sequence). -/
def orderedInsertStr (x : String) : List String → List String
  | [] => [x]
  | y :: rest =>
      if strLe x y then x :: y :: rest else y :: orderedInsertStr x rest

/-- Ascending sort of a string list. -/
def sortStrings : List String → List String
  | [] => []
  | x :: rest => orderedInsertStr x (sortStrings rest)

/-- Adjacent-pair ascending-order check. -/
def strSorted : List String → Bool
  | [] => true
  | [_] => true
  | x :: y :: rest => strLe x y && strSorted (y :: rest)

/-- `strings.HasSuffix`, on characters. -/
def strEndsWith (s suf : String) : Bool :=
  s.data.drop (s.data.length - suf.data.length) == suf.data

/-- `strings.HasPrefix`, on characters. -/
def strStartsWith (s q : String) : Bool :=
  s.data.take q.data.length == q.data

/-- Go set-map insert `set[x] = true`, keeping first-insertion order. -/
def addSet (s : List String) (x : String) : List String :=
  if s.contains x then s else s ++ [x]

/-- `filepath.Dir` on clean, `/`-separated paths: everything before the
last separator (`"."` when there is none, `"/"` for a root child). -/
def dirOfAux : List Char → Option (List Char)
  | [] => none
  | c :: rest =>
      match dirOfAux rest with
      | some d => some (c :: d)
      | none => if c == '/' then some [] else none

/-- `filepath.Dir` (`main.go` line 159 uses it on cached file paths). -/
def dirOf (s : String) : String :=
  match dirOfAux s.data with
  | none => "."
  | some [] => "/"
  | some d => String.mk d

/-- `minimalRoots` (`main.go` lines 196-219): sort the changed-directory
paths and drop every path that extends an earlier kept root by a
separator. -/
def minimalRoots (dirs : List String) : List String :=
  (sortStrings dirs).foldl
    (fun roots p =>
      if roots.any (fun root => strStartsWith p (root ++ "/")) then roots
      else roots ++ [p]) []

/-- A directory tree as `filepath.WalkDir` sees it: named files and named
directories with a modification time and children listed in lexical order
(the order `os.ReadDir` guarantees). -/
inductive FTree where
  | file (name : String)
  | dir (name : String) (mtime : Int) (children : List FTree)

/-- Name of a tree node. -/
def FTree.name : FTree → String
  | FTree.file n => n
  | FTree.dir n _ _ => n

mutual
/-- `filepath.WalkDir` from a node whose full path is `p` (`fullWalkJSONL`
and `walkSubtree`, `main.go` lines 66-107, are this same traversal):
directories record `(path, mtime)` and recurse; files whose path ends in
`.jsonl` are collected, in walk order. -/
def walkNode (p : String) : FTree → List String × List (String × Int)
  | FTree.file _ => (if strEndsWith p ".jsonl" then [p] else [], [])
  | FTree.dir _ m cs =>
      let r := walkList p cs
      (r.1, (p, m) :: r.2)

/-- Walk of a directory's children, in listing order. -/
def walkList (p : String) : List FTree → List String × List (String × Int)
  | [] => ([], [])
  | c :: cs =>
      let r₁ := walkNode (p ++ "/" ++ FTree.name c) c
      let r₂ := walkList p cs
      (r₁.1 ++ r₂.1, r₁.2 ++ r₂.2)
end

/-- A filesystem whose walk of `root` is the walk of the tree `t` (the
stat/open components are irrelevant to discovery of a cold start). -/
def treeFS (root : String) (t : FTree) : FSModel :=
  ⟨fun _ => none, fun _ => none, fun _ => none,
    fun p => if p == root then walkNode root t else ([], [])⟩

/-- Well-formed node names: non-empty, no path separator. -/
def goodName (n : String) : Bool :=
  !n.data.isEmpty && n.data.all (fun c => c != '/')

/-- Duplicate-freedom of a name list, as a Bool. -/
def namesNodup : List String → Bool
  | [] => true
  | n :: rest => !rest.contains n && namesNodup rest

mutual
/-- Well-formedness of a tree: good names, duplicate-free sibling names. -/
def wfTree : FTree → Bool
  | FTree.file n => goodName n
  | FTree.dir n _ cs =>
      goodName n && namesNodup (cs.map FTree.name) && wfList cs

/-- Well-formedness of a child list. -/
def wfList : List FTree → Bool
  | [] => true
  | c :: cs => wfTree c && wfList cs
end

/-- `q` lies at or under the path `base`. -/
def underPath (base q : String) : Prop :=
  q = base ∨ ∃ u, q.data = base.data ++ '/' :: u

/-- `discoveryStats` (`main.go` lines 281-287). -/
structure DiscoveryStats where
  dirsChecked : Nat
  dirsChanged : Nat
  subtreesWalked : Nat
  filesFromCache : Nat
  fullWalk : Bool
  deriving DecidableEq, Repr

/-- `fullWalkInterval` (`main.go` line 109): five minutes, in the
nanoseconds of `time.Time` arithmetic. -/
def fullWalkInterval : Int := 300000000000

/-- Warm-scan accumulator (`main.go` lines 136-154): changed roots,
unchanged directories, changed count. -/
structure WarmScan where
  changedRoots : List String
  unchangedDirs : List String
  dirsChanged : Nat
  deriving DecidableEq, Repr

/-- One warm-scan iteration: a failed stat or a changed mtime marks the
directory changed. -/
def warmScanStep (fs : FSModel) (acc : WarmScan) (dp : String × Int) :
    WarmScan :=
  match fs.statDir dp.1 with
  | none =>
      { acc with changedRoots := acc.changedRoots ++ [dp.1],
                 dirsChanged := acc.dirsChanged + 1 }
  | some m =>
      if m ≠ dp.2 then
        { acc with changedRoots := acc.changedRoots ++ [dp.1],
                   dirsChanged := acc.dirsChanged + 1 }
      else { acc with unchangedDirs := acc.unchangedDirs ++ [dp.1] }

/-- The warm scan over the manifested directories. -/
def warmScan (fs : FSModel) (c : CacheFile) : WarmScan :=
  c.dirs.foldl (warmScanStep fs) ⟨[], [], 0⟩

/-- Collection of a cached file path when its parent directory is
unchanged (`main.go` lines 157-164). -/
def cachedFileStep (unchanged : List String) (s : List String)
    (pf : String × FileCacheEntry) : List String :=
  if unchanged.contains (dirOf pf.1) then addSet s pf.1 else s

/-- The warm-discovery file set: cached files of unchanged directories,
then the files of every walked changed subtree (`main.go` lines 156-178;
the Go loop interleaves the file-set and manifest updates of one subtree,
which are independent accumulations, so they are folded separately). -/
def warmFileSet (fs : FSModel) (c : CacheFile) : List String :=
  (minimalRoots (warmScan fs c).changedRoots).foldl
    (fun acc root => (fs.walkFS root).1.foldl addSet acc)
    (c.files.foldl (cachedFileStep (warmScan fs c).unchangedDirs) [])

/-- The warm-discovery manifest: subtree mtimes written over the old ones,
then directories that no longer stat pruned (`main.go` lines 174-185;
the `delete(unchangedDirs, d)` of line 176 touches a map that is never
read afterwards and has no observable effect). -/
def warmDirs (fs : FSModel) (c : CacheFile) : List (String × Int) :=
  ((minimalRoots (warmScan fs c).changedRoots).foldl
      (fun ds root =>
        (fs.walkFS root).2.foldl (fun ds₁ dm => setKey ds₁ dm.1 dm.2) ds)
      c.dirs).filter
    (fun dp => (fs.statDir dp.1).isSome)

/-- The `filesFromCache` counter (`main.go` line 162). -/
def warmFilesFromCache (fs : FSModel) (c : CacheFile) : Nat :=
  c.files.countP
    (fun pf => (warmScan fs c).unchangedDirs.contains (dirOf pf.1))

/-- `findJSONLFiles` (`main.go` lines 114-194): full walk on a nil cache,
an empty manifest, or an elapsed safety interval (refreshing the manifest
and the walk timestamp); otherwise the warm path — stat manifested
directories, reuse cached paths of unchanged ones, walk minimal changed
roots, prune dead directories, and return the sorted deduplicated file
set. -/
def findJSONLFiles (fs : FSModel) (now : Int) (dir : String)
    (cache : Option CacheFile) :
    List String × DiscoveryStats × Option CacheFile :=
  match cache with
  | none =>
      let w := fs.walkFS dir
      (w.1, ⟨w.2.length, 0, 0, 0, true⟩, none)
  | some c =>
      if c.dirs.isEmpty = true ∨ fullWalkInterval < now - c.lastFullWalk then
        let w := fs.walkFS dir
        (w.1, ⟨w.2.length, 0, 0, 0, true⟩,
          some { c with dirs := w.2, lastFullWalk := now })
      else
        (sortStrings (warmFileSet fs c),
          ⟨c.dirs.length, (warmScan fs c).dirsChanged,
            (minimalRoots (warmScan fs c).changedRoots).length,
            warmFilesFromCache fs c, false⟩,
          some { c with dirs := warmDirs fs c })

/-- The cache-validity test of `main` (`main.go` lines 803-805). -/
def cacheValidOf (loaded : Option CacheFile) (tz : String) : Bool :=
  match loaded with
  | none => false
  | some c => (c.version == CacheVersion) && (c.timezone == tz)

/-- The fresh cache built when the loaded one is invalid (`main.go`
lines 806-812). -/
def freshCache (tz : String) : CacheFile := ⟨CacheVersion, tz, [], [], 0⟩

/-- Observable outcome of one `main` run (`main.go` lines 786-855). -/
structure RunOut where
  files : List String
  dStats : DiscoveryStats
  cacheStart : CacheFile
  entries : List EntryData
  cStats : CacheStats
  dirty : Bool
  persisted : Bool
  cacheFinal : CacheFile
  missQ : List (String × Int × Int)
  deriving DecidableEq, Repr

/-- The `main` pipeline (`main.go` lines 799-854) from the loaded cache
on: validity check, fresh cache on mismatch, discovery, processing, and
the persistence decision `dirty || dStats.fullWalk || dStats.dirsChanged > 0`
(line 852).  `loadCache` itself is I/O; its result is the `loaded`
parameter, and `getLocalTimezone`/`time.Now` are the `tz`/`now`
parameters. -/
def runMain (fs : FSModel) (loc : Int) (tz : String) (now : Int)
    (rootDir : String) (loaded : Option CacheFile) : RunOut :=
  let cv := cacheValidOf loaded tz
  let cache₀ :=
    match loaded with
    | some c => if cv then c else freshCache tz
    | none => freshCache tz
  let d := findJSONLFiles fs now rootDir (some cache₀)
  let cache₁ := d.2.2.getD cache₀
  let pr := processWithCacheLoaded fs loc d.1 cache₁ cv
  { files := d.1, dStats := d.2.1, cacheStart := cache₁,
    entries := pr.entries, cStats := pr.stats, dirty := pr.dirty,
    persisted := pr.dirty || d.2.1.fullWalk || decide (0 < d.2.1.dirsChanged),
    cacheFinal := pr.cacheOut, missQ := pr.missQ }

theorem findByKey_append (l₁ l₂ : List EntryData) (k : String) :
    findByKey (l₁ ++ l₂) k = (findByKey l₁ k).or (findByKey l₂ k) := by
  induction l₁ with
  | nil => simp [findByKey]
  | cons x t ih =>
      by_cases hx : x.key == k
      · simp [findByKey, hx]
      · simp [findByKey, hx, ih]

theorem findByKey_replaceByKey (l : List EntryData) (e : EntryData)
    (h : (findByKey l e.key).isSome) :
    findByKey (replaceByKey l e) e.key = some e := by
  induction l with
  | nil => simp [findByKey] at h
  | cons x t ih =>
      by_cases hx : x.key == e.key
      · simp [replaceByKey, hx, findByKey]
      · simp only [findByKey, hx, if_false] at h
        simp only [replaceByKey, hx, if_false, findByKey]
        exact ih h

theorem c1_helper_insert (st : MState) (e : EntryData)
    (h : findByKey st.entries e.key = none) :
    mergeOne st e =
      { st with entries := st.entries ++ [e], totalNew := st.totalNew + 1 } := by
  simp [mergeOne, h]

/-- C1: starting from a merged map with no binding for the shared dedupKey,
merging two records `r₁` and `r₂` with that key and distinct token totals
retains, in either merge order, exactly the record with the strictly
greater sum of its four token counters. -/
theorem c1_merge_larger_total_wins
    (st : MState) (r₁ r₂ : EntryData)
    (hk : r₁.key = r₂.key)
    (hfresh : findByKey st.entries r₁.key = none)
    (hne : entryTotalTokens r₁ ≠ entryTotalTokens r₂) :
    findByKey (mergeOne (mergeOne st r₁) r₂).entries r₁.key =
      some (if entryTotalTokens r₂ > entryTotalTokens r₁ then r₂ else r₁) ∧
    findByKey (mergeOne (mergeOne st r₂) r₁).entries r₁.key =
      some (if entryTotalTokens r₂ > entryTotalTokens r₁ then r₂ else r₁) := by
  have hfresh₂ : findByKey st.entries r₂.key = none := hk ▸ hfresh
  have step₁ : mergeOne st r₁ =
      { st with entries := st.entries ++ [r₁], totalNew := st.totalNew + 1 } :=
    c1_helper_insert st r₁ hfresh
  have step₂ : mergeOne st r₂ =
      { st with entries := st.entries ++ [r₂], totalNew := st.totalNew + 1 } :=
    c1_helper_insert st r₂ hfresh₂
  have find₁ : findByKey (st.entries ++ [r₁]) r₂.key = some r₁ := by
    rw [findByKey_append, hfresh₂]
    simp [findByKey, List.find?, hk]
  have find₂ : findByKey (st.entries ++ [r₂]) r₁.key = some r₂ := by
    rw [findByKey_append, hfresh]
    simp [findByKey, List.find?, hk]
  constructor
  · -- merge r₁ then r₂
    rw [step₁]
    by_cases hgt : entryTotalTokens r₂ > entryTotalTokens r₁
    · simp only [mergeOne, hk, find₁, hgt, if_pos]
      have : findByKey ((st.entries ++ [r₁])) r₂.key = some r₁ := find₁
      have hrep : findByKey (replaceByKey (st.entries ++ [r₁]) r₂) r₂.key = some r₂ :=
        findByKey_replaceByKey _ _ (by rw [find₁]; rfl)
      simpa [hk, hgt] using hrep
    · simp only [mergeOne, hk, find₁]
      rw [if_neg hgt]
      simpa [hgt, hk] using find₁
  · -- merge r₂ then r₁
    rw [step₂]
    by_cases hgt : entryTotalTokens r₂ > entryTotalTokens r₁
    · have hngt : ¬ entryTotalTokens r₁ > entryTotalTokens r₂ := by omega
      simp only [mergeOne, find₂, hngt, if_neg, if_pos hgt]
      simpa [hgt] using find₂
    · have hgt1 : entryTotalTokens r₁ > entryTotalTokens r₂ := by
        rcases lt_or_gt_of_ne hne with h | h
        · exact absurd h hgt
        · exact h
      simp only [mergeOne, find₂, hgt1, if_pos]
      have hrep : findByKey (replaceByKey (st.entries ++ [r₂]) r₁) r₁.key = some r₁ :=
        findByKey_replaceByKey _ _ (by rw [find₂]; rfl)
      simpa [hgt] using hrep

/-- C1 witness: two concrete records with the same key and totals 10 vs 4;
both merge orders retain the larger one. -/
theorem c1_merge_larger_total_wins_witness :
    let r₁ : EntryData := ⟨"k:1", "2025-01-01", "m", 1, 2, 3, 4⟩
    let r₂ : EntryData := ⟨"k:1", "2025-01-02", "m", 1, 1, 1, 1⟩
    findByKey (mergeOne (mergeOne ⟨[], 0, 0⟩ r₁) r₂).entries "k:1" = some r₁ ∧
    findByKey (mergeOne (mergeOne ⟨[], 0, 0⟩ r₂) r₁).entries "k:1" = some r₁ := by
  intro r₁ r₂
  have h := c1_merge_larger_total_wins ⟨[], 0, 0⟩ r₁ r₂ (by decide) (by decide)
    (by decide)
  simpa using h

/-- C10: on a token-total tie between two records sharing a dedupKey, the
record merged earlier stays in the map, the conflict counter does not
move, and (for distinct records) the two merge orders retain different
records. -/
theorem c10_tie_keeps_existing_order_dependent
    (st : MState) (r₁ r₂ : EntryData)
    (hk : r₁.key = r₂.key)
    (hfresh : findByKey st.entries r₁.key = none)
    (heq : entryTotalTokens r₁ = entryTotalTokens r₂) :
    findByKey (mergeOne (mergeOne st r₁) r₂).entries r₁.key = some r₁ ∧
    (mergeOne (mergeOne st r₁) r₂).conflicts = st.conflicts ∧
    findByKey (mergeOne (mergeOne st r₂) r₁).entries r₁.key = some r₂ ∧
    (mergeOne (mergeOne st r₂) r₁).conflicts = st.conflicts ∧
    (r₁ ≠ r₂ →
      findByKey (mergeOne (mergeOne st r₁) r₂).entries r₁.key ≠
        findByKey (mergeOne (mergeOne st r₂) r₁).entries r₁.key) := by
  have hfresh₂ : findByKey st.entries r₂.key = none := hk ▸ hfresh
  have step₁ := c1_helper_insert st r₁ hfresh
  have step₂ := c1_helper_insert st r₂ hfresh₂
  have find₁ : findByKey (st.entries ++ [r₁]) r₂.key = some r₁ := by
    rw [findByKey_append, hfresh₂]
    simp [findByKey, List.find?, hk]
  have find₂ : findByKey (st.entries ++ [r₂]) r₁.key = some r₂ := by
    rw [findByKey_append, hfresh]
    simp [findByKey, List.find?, hk]
  have hngt₂ : ¬ entryTotalTokens r₂ > entryTotalTokens r₁ := by omega
  have hngt₁ : ¬ entryTotalTokens r₁ > entryTotalTokens r₂ := by omega
  have left : mergeOne (mergeOne st r₁) r₂ = mergeOne st r₁ := by
    rw [step₁]
    simp [mergeOne, find₁, hngt₂]
  have right : mergeOne (mergeOne st r₂) r₁ = mergeOne st r₂ := by
    rw [step₂]
    simp [mergeOne, find₂, hngt₁]
  refine ⟨?_, ?_, ?_, ?_, ?_⟩
  · rw [left, step₁]
    simpa [hk] using find₁
  · rw [left, step₁]
  · rw [right, step₂]
    exact find₂
  · rw [right, step₂]
  · intro hne h
    rw [left, step₁, right, step₂] at h
    have h₁ : findByKey (st.entries ++ [r₁]) r₁.key = some r₁ := by
      simpa [hk] using find₁
    rw [h₁, find₂] at h
    exact hne (Option.some.inj h)

/-- C10 witness: a concrete tie (totals both 4); the earlier record wins in
each order, no conflict is counted, and the two orders disagree. -/
theorem c10_tie_keeps_existing_order_dependent_witness :
    let r₁ : EntryData := ⟨"k:1", "2025-01-01", "m", 1, 1, 1, 1⟩
    let r₂ : EntryData := ⟨"k:1", "2025-01-02", "m", 4, 0, 0, 0⟩
    findByKey (mergeOne (mergeOne ⟨[], 7, 0⟩ r₁) r₂).entries "k:1" = some r₁ ∧
    (mergeOne (mergeOne ⟨[], 7, 0⟩ r₁) r₂).conflicts = 7 ∧
    findByKey (mergeOne (mergeOne ⟨[], 7, 0⟩ r₂) r₁).entries "k:1" = some r₂ ∧
    findByKey (mergeOne (mergeOne ⟨[], 7, 0⟩ r₁) r₂).entries "k:1" ≠
      findByKey (mergeOne (mergeOne ⟨[], 7, 0⟩ r₂) r₁).entries "k:1" := by
  intro r₁ r₂
  have h := c10_tie_keeps_existing_order_dependent ⟨[], 7, 0⟩ r₁ r₂ (by decide)
    (by decide) (by decide)
  exact ⟨h.1, h.2.1, h.2.2.1, h.2.2.2.2 (by decide)⟩

theorem parseLine_some (loc : Int) (e : LogEntry) :
    parseLine loc (some e) = lineRecord loc e := rfl

theorem lineRecord_none_iff (loc : Int) (e : LogEntry) :
    lineRecord loc e = none ↔
      e.timestamp = "" ∨ (e.usage.inputTokens = 0 ∧ e.usage.outputTokens = 0) ∨
      e.msgID = "" ∨ e.requestID = "" ∨ parseRFC3339 e.timestamp = none := by
  unfold lineRecord
  cases hp : parseRFC3339 e.timestamp with
  | none =>
      split_ifs <;>
        simp_all [Bool.or_eq_true, Bool.and_eq_true, beq_iff_eq,
          Bool.or_eq_false_iff, Bool.and_eq_false_iff, beq_eq_false_iff_ne]
  | some t =>
      split_ifs with hA hB <;>
        · simp_all [Bool.or_eq_true, Bool.and_eq_true, beq_iff_eq,
            Bool.or_eq_false_iff, Bool.and_eq_false_iff, beq_eq_false_iff_ne]
          try tauto

/-- C3 counterexample: the line `{"timestamp":"2025-01-02 03:04:05Z",
"requestId":"req-1","message":{"id":"msg-1","model":"claude",
"usage":{"input_tokens":1}}}` decodes as JSON, has a (non-empty)
timestamp, has a non-zero token count and has both dedup fields, so the
claim says it yields a candidate record — but the code skips it, because
its timestamp (space instead of `T`) fails `time.Parse(time.RFC3339, ·)`
(`main.go` lines 520-523), a skip reason the claim's enumeration omits. -/
theorem c3_skip_condition_counterexample :
    let e : LogEntry :=
      ⟨"2025-01-02 03:04:05Z", "req-1", "msg-1", "claude", ⟨1, 0, 0, 0⟩⟩
    parseLine 0 (some e) = none ∧
    some e ≠ (none : Option LogEntry) ∧
    e.timestamp ≠ "" ∧
    ¬(e.usage.inputTokens = 0 ∧ e.usage.outputTokens = 0) ∧
    e.msgID ≠ "" ∧ e.requestID ≠ "" := by
  refine ⟨?_, ?_, ?_, ?_, ?_, ?_⟩ <;> decide

/-- C3 (amended): a line contributes no candidate record exactly when it
fails to parse as JSON, or has an empty timestamp, or has both its input
and output token counts zero, or lacks the message id or the request id,
or its timestamp fails to parse as an RFC3339 time. -/
theorem c3_skip_condition_amended (loc : Int) (l : Option LogEntry) :
    parseLine loc l = none ↔
      l = none ∨ ∃ e, l = some e ∧
        (e.timestamp = "" ∨ (e.usage.inputTokens = 0 ∧ e.usage.outputTokens = 0) ∨
         e.msgID = "" ∨ e.requestID = "" ∨ parseRFC3339 e.timestamp = none) := by
  cases l with
  | none => simp [parseLine]
  | some e =>
      rw [parseLine_some, lineRecord_none_iff loc e]
      constructor
      · intro h
        exact Or.inr ⟨e, rfl, h⟩
      · rintro (h | ⟨e₂, he, hcond⟩)
        · exact absurd h (by simp)
        · injection he with he₂
          exact he₂ ▸ hcond

theorem findByKey_cons (r : EntryData) (rest : List EntryData) (k : String) :
    findByKey (r :: rest) k = (findByKey [r] k).or (findByKey rest k) := by
  by_cases h : r.key == k <;> simp [findByKey, h]

theorem processLinesStep_none (loc : Int) (acc : List EntryData)
    (st : FileStats) :
    processLinesStep loc (acc, st) none =
      (acc, { st with linesRead := st.linesRead + 1 }) := rfl

theorem processLinesStep_skip (loc : Int) (acc : List EntryData)
    (st : FileStats) (e : LogEntry) (hr : lineRecord loc e = none) :
    processLinesStep loc (acc, st) (some e) =
      (acc, { st with linesRead := st.linesRead + 1,
                      linesParsed := st.linesParsed + 1 }) := by
  simp [processLinesStep, hr]

theorem processLinesStep_dup (loc : Int) (acc : List EntryData)
    (st : FileStats) (e : LogEntry) (r : EntryData)
    (hr : lineRecord loc e = some r)
    (hd : (findByKey acc r.key).isSome = true) :
    processLinesStep loc (acc, st) (some e) =
      (acc, { st with linesRead := st.linesRead + 1,
                      linesParsed := st.linesParsed + 1 }) := by
  simp [processLinesStep, hr, hd]

theorem processLinesStep_fresh (loc : Int) (acc : List EntryData)
    (st : FileStats) (e : LogEntry) (r : EntryData)
    (hr : lineRecord loc e = some r)
    (hd : (findByKey acc r.key).isSome = false) :
    processLinesStep loc (acc, st) (some e) =
      (acc ++ [r], { st with linesRead := st.linesRead + 1,
                             linesParsed := st.linesParsed + 1,
                             entriesNew := st.entriesNew + 1 }) := by
  simp [processLinesStep, hr, hd]

theorem processLines_find_go (loc : Int) (k : String)
    (ls : List (Option LogEntry)) :
    ∀ (acc : List EntryData) (st : FileStats),
      findByKey (List.foldl (processLinesStep loc) (acc, st) ls).1 k =
        (findByKey acc k).or (findByKey (ls.filterMap (parseLine loc)) k) := by
  induction ls with
  | nil => intro acc st; simp [findByKey]
  | cons l ls ih =>
      intro acc st
      cases l with
      | none =>
          rw [List.foldl_cons, processLinesStep_none, ih]
          simp [parseLine]
      | some e =>
          cases hr : lineRecord loc e with
          | none =>
              rw [List.foldl_cons, processLinesStep_skip loc acc st e hr, ih]
              simp [List.filterMap_cons, parseLine_some, hr]
          | some r =>
              cases hd : (findByKey acc r.key).isSome with
              | true =>
                  rw [List.foldl_cons, processLinesStep_dup loc acc st e r hr hd,
                    ih]
                  simp only [List.filterMap_cons, parseLine_some, hr]
                  rw [findByKey_cons]
                  by_cases hk : r.key = k
                  · obtain ⟨v, hv⟩ := Option.isSome_iff_exists.mp (hk ▸ hd)
                    rw [hv]
                    simp
                  · have : findByKey [r] k = none := by
                      simp [findByKey, hk]
                    rw [this, Option.none_or]
              | false =>
                  rw [List.foldl_cons,
                    processLinesStep_fresh loc acc st e r hr hd, ih]
                  simp only [List.filterMap_cons, parseLine_some, hr]
                  rw [findByKey_cons, findByKey_append, Option.or_assoc]

/-- C8: within one parsed file, the record retained for a dedupKey is the
one built from the first line (in file order) whose candidate record
carries that key; later candidate records with the same key are ignored
whatever their token counts.  Formally: the dedup map built by the scan
loop agrees, on every key, with the first matching candidate of the
line-by-line candidate sequence. -/
theorem c8_first_occurrence_wins (loc : Int) (ls : List (Option LogEntry))
    (k : String) :
    findByKey (processLines loc ls).1 k =
      findByKey (ls.filterMap (parseLine loc)) k := by
  unfold processLines
  rw [processLines_find_go loc k ls [] ⟨0, 0, 0⟩]
  simp [findByKey]

theorem phase1Step_missQ_eq (fs : FSModel) (cache : CacheFile) (cv : Bool)
    (s : Phase1St) (path : String) :
    (phase1Step fs cache cv s path).missQ =
      s.missQ ++ (classifyMiss fs cache cv path).toList := by
  unfold phase1Step classifyMiss
  cases hst : fs.statFile path with
  | none => simp
  | some p =>
      cases hl : lookupKey cache.files path with
      | none => simp
      | some cached =>
          by_cases hc : (cv && (cached.modTime == p.1) && (cached.size == p.2)) = true
          · simp [hc]
          · simp only [Bool.not_eq_true] at hc
            simp [hc]

theorem phase1_missQ_go (fs : FSModel) (cache : CacheFile) (cv : Bool)
    (files : List String) :
    ∀ s : Phase1St,
      (files.foldl (phase1Step fs cache cv) s).missQ =
        s.missQ ++ files.filterMap (classifyMiss fs cache cv) := by
  induction files with
  | nil => intro s; simp
  | cons p rest ih =>
      intro s
      rw [List.foldl_cons, ih]
      rw [phase1Step_missQ_eq]
      cases hc : classifyMiss fs cache cv p with
      | none => simp [List.filterMap_cons, hc]
      | some m => simp [List.filterMap_cons, hc]

theorem phase1_missQ (fs : FSModel) (cache : CacheFile) (cv : Bool)
    (files : List String) :
    (phase1 fs cache cv files).missQ =
      files.filterMap (classifyMiss fs cache cv) := by
  unfold phase1
  rw [phase1_missQ_go]
  simp

theorem phase1_hits_invalid (fs : FSModel) (cache : CacheFile)
    (files : List String) :
    ∀ s : Phase1St,
      (files.foldl (phase1Step fs cache false) s).hits = s.hits := by
  induction files with
  | nil => intro s; rfl
  | cons p rest ih =>
      intro s
      rw [List.foldl_cons, ih]
      unfold phase1Step
      cases hst : fs.statFile p with
      | none => rfl
      | some q =>
          cases hl : lookupKey cache.files p with
          | none => rfl
          | some cached => simp

theorem classifyMiss_fst (fs : FSModel) (cache : CacheFile) (cv : Bool)
    (q : String) (m : String × Int × Int)
    (h : classifyMiss fs cache cv q = some m) : m.1 = q := by
  unfold classifyMiss at h
  split at h
  · simp at h
  · split at h
    · split at h
      · simp at h
      · cases h; rfl
    · cases h; rfl

theorem mem_missQ_iff (fs : FSModel) (cache : CacheFile) (cv : Bool)
    (files : List String) (path : String) (hmem : path ∈ files) :
    path ∈ (phase1 fs cache cv files).missQ.map Prod.fst ↔
      (classifyMiss fs cache cv path).isSome = true := by
  rw [phase1_missQ]
  constructor
  · intro h
    obtain ⟨m, hm, hp⟩ := List.mem_map.mp h
    obtain ⟨q, hq, hcq⟩ := List.mem_filterMap.mp hm
    have hqp : q = path :=
      (classifyMiss_fst fs cache cv q m hcq).symm.trans hp
    subst hqp
    rw [hcq]
    rfl
  · intro h
    obtain ⟨m, hm⟩ := Option.isSome_iff_exists.mp h
    exact List.mem_map.mpr ⟨m, List.mem_filterMap.mpr ⟨path, hmem, hm⟩,
      classifyMiss_fst fs cache cv path m hm⟩

theorem classifyMiss_isSome_iff (fs : FSModel) (cache : CacheFile) (cv : Bool)
    (path : String) (mtime size : Int)
    (hstat : fs.statFile path = some (mtime, size)) :
    (classifyMiss fs cache cv path).isSome = true ↔
      (cv = false ∨ lookupKey cache.files path = none ∨
        ∃ fe, lookupKey cache.files path = some fe ∧
          (fe.modTime ≠ mtime ∨ fe.size ≠ size)) := by
  unfold classifyMiss
  rw [hstat]
  cases hl : lookupKey cache.files path with
  | none => simp [hl]
  | some fe =>
      by_cases hc : (cv && (fe.modTime == mtime) && (fe.size == size)) = true
      · simp only [if_pos hc, Option.isSome_none]
        simp only [Bool.and_eq_true, beq_iff_eq] at hc
        simp [hc.1.1, hc.1.2, hc.2, hl]
      · simp only [if_neg hc, Option.isSome_some, true_iff]
        simp only [Bool.and_eq_true, beq_iff_eq, not_and_or, Bool.not_eq_true] at hc
        rcases hc with (hc | hc) | hc
        · exact Or.inl hc
        · exact Or.inr (Or.inr ⟨fe, rfl, Or.inl hc⟩)
        · exact Or.inr (Or.inr ⟨fe, rfl, Or.inr hc⟩)

/-- C4 counterexample: file `"a"` is discovered, the cache is globally
invalid and holds no entry for it — the claim demands a re-parse — yet
the run queues no miss at all, because `os.Stat` fails on `"a"` and the
scan skips it (`main.go` lines 587-589). -/
theorem c4_reparse_iff_counterexample :
    let fs : FSModel :=
      ⟨fun _ => none, fun _ => none, fun _ => none, fun _ => ([], [])⟩
    let cache : CacheFile := ⟨2, "UTC", [], [], 0⟩
    lookupKey cache.files "a" = none ∧
    (processWithCacheLoaded fs 0 ["a"] cache false).missQ = [] ∧
    (processWithCacheLoaded fs 0 ["a"] cache false).stats.misses = 0 := by
  refine ⟨rfl, rfl, rfl⟩

/-- C4 (amended): among the discovered files that can be statted, a file
is re-parsed (queued as a phase-1 miss) exactly when its current
`(modTime, size)` differ from the cached entry's stored values, it has no
cached entry, or the cache is globally invalid; and whenever the cache is
globally invalid (format-version or timezone mismatch makes `cacheValid`
false) the hit count is zero.  A discovered file whose stat fails is
skipped entirely, neither hit nor re-parsed. -/
theorem c4_reparse_iff_amended (fs : FSModel) (loc : Int)
    (files : List String) (cache : CacheFile) (cv : Bool) :
    (∀ path mtime size, path ∈ files → fs.statFile path = some (mtime, size) →
      (path ∈ (processWithCacheLoaded fs loc files cache cv).missQ.map Prod.fst ↔
        (cv = false ∨ lookupKey cache.files path = none ∨
          ∃ fe, lookupKey cache.files path = some fe ∧
            (fe.modTime ≠ mtime ∨ fe.size ≠ size)))) ∧
    (cv = false → (processWithCacheLoaded fs loc files cache cv).stats.hits = 0) := by
  constructor
  · intro path mtime size hmem hstat
    have hq : (processWithCacheLoaded fs loc files cache cv).missQ =
        (phase1 fs cache cv files).missQ := rfl
    rw [hq, mem_missQ_iff fs cache cv files path hmem,
      classifyMiss_isSome_iff fs cache cv path mtime size hstat]
  · intro hcv
    have hs : (processWithCacheLoaded fs loc files cache cv).stats.hits =
        (phase1 fs cache cv files).hits := rfl
    rw [hs, hcv]
    exact phase1_hits_invalid fs cache files _

/-- C4 witness: with an invalid cache, a statable file with a cached
entry is re-parsed and the hit count is zero. -/
theorem c4_reparse_iff_amended_witness :
    let fs : FSModel :=
      ⟨fun p => if p = "a" then some (5, 7) else none, fun _ => none,
        fun _ => none, fun _ => ([], [])⟩
    let cache : CacheFile := ⟨2, "UTC", [("a", ⟨5, 7, []⟩)], [], 0⟩
    "a" ∈ (processWithCacheLoaded fs 0 ["a"] cache false).missQ.map Prod.fst ∧
    (processWithCacheLoaded fs 0 ["a"] cache false).stats.hits = 0 := by
  intro fs cache
  have h := c4_reparse_iff_amended fs 0 ["a"] cache false
  refine ⟨(h.1 "a" 5 7 (by decide) (by decide)).mpr (Or.inl rfl), h.2 rfl⟩

/-- Entries merged for a file by phase 1 when it is a hit (specification
helper; `none` when the file is not a hit). -/
def hitEntries (fs : FSModel) (cache : CacheFile) (cv : Bool)
    (path : String) : Option (List EntryData) :=
  match fs.statFile path with
  | none => none
  | some (mtime, size) =>
      match lookupKey cache.files path with
      | some cached =>
          if cv && (cached.modTime == mtime) && (cached.size == size) then
            some cached.entries
          else none
      | none => none

theorem phase1Step_ms_eq (fs : FSModel) (cache : CacheFile) (cv : Bool)
    (s : Phase1St) (path : String) :
    (phase1Step fs cache cv s path).ms =
      match hitEntries fs cache cv path with
      | some es => mergeList s.ms es
      | none => s.ms := by
  unfold phase1Step hitEntries
  cases hst : fs.statFile path with
  | none => rfl
  | some p =>
      obtain ⟨mt, sz⟩ := p
      cases hl : lookupKey cache.files path with
      | none => rfl
      | some cached =>
          by_cases hc : (cv && (cached.modTime == mt) && (cached.size == sz)) = true
          · simp [hc]
          · simp only [Bool.not_eq_true] at hc
            simp [hc]

theorem hitEntries_none_of_not_hit (fs : FSModel) (cache : CacheFile)
    (cv : Bool) (path : String)
    (h : isHitFile fs cache cv path = false) :
    hitEntries fs cache cv path = none := by
  unfold isHitFile at h
  unfold hitEntries
  cases hst : fs.statFile path with
  | none => rfl
  | some p =>
      obtain ⟨mt, sz⟩ := p
      rw [hst] at h
      cases hl : lookupKey cache.files path with
      | none => rfl
      | some cached =>
          rw [hl] at h
          change (cv && (cached.modTime == mt) && (cached.size == sz)) = false at h
          simp [h]

theorem hitEntries_none_of_stat_none (fs : FSModel) (cache : CacheFile)
    (cv : Bool) (path : String) (h : fs.statFile path = none) :
    hitEntries fs cache cv path = none := by
  unfold hitEntries
  rw [h]

theorem phase1_ms_filter (fs : FSModel) (cache : CacheFile) (cv : Bool) :
    ∀ (files : List String),
      (∀ p ∈ files, fs.openFile p = none → isHitFile fs cache cv p = false) →
      ∀ (s₁ s₂ : Phase1St), s₁.ms = s₂.ms →
        (files.foldl (phase1Step fs cache cv) s₁).ms =
          ((files.filter (readable fs)).foldl (phase1Step fs cache cv) s₂).ms := by
  intro files
  induction files with
  | nil => intro _ s₁ s₂ h; exact h
  | cons p rest ih =>
      intro H s₁ s₂ hms
      cases hr : readable fs p with
      | true =>
          rw [List.filter_cons_of_pos hr, List.foldl_cons, List.foldl_cons]
          refine ih (fun q hq => H q (List.mem_cons_of_mem p hq)) _ _ ?_
          rw [phase1Step_ms_eq, phase1Step_ms_eq, hms]
      | false =>
          rw [List.filter_cons_of_neg (by simp [hr]), List.foldl_cons]
          refine ih (fun q hq => H q (List.mem_cons_of_mem p hq)) _ _ ?_
          rw [phase1Step_ms_eq]
          have hnone : hitEntries fs cache cv p = none := by
            unfold readable at hr
            rcases Bool.and_eq_false_iff.mp hr with h | h
            · exact hitEntries_none_of_stat_none fs cache cv p
                (Option.not_isSome_iff_eq_none.mp (by simp [h]))
            · exact hitEntries_none_of_not_hit fs cache cv p
                (H p (List.mem_cons_self p rest)
                  (Option.not_isSome_iff_eq_none.mp (by simp [h])))
          rw [hnone]
          exact hms

theorem classifyMiss_stat_isSome (fs : FSModel) (cache : CacheFile)
    (cv : Bool) (q : String) (m : String × Int × Int)
    (h : classifyMiss fs cache cv q = some m) :
    (fs.statFile q).isSome = true := by
  unfold classifyMiss at h
  cases hst : fs.statFile q with
  | none => rw [hst] at h; simp at h
  | some p => rfl

theorem filterMap_classify_filter (fs : FSModel) (cache : CacheFile)
    (cv : Bool) :
    ∀ files : List String,
      (files.filter (readable fs)).filterMap (classifyMiss fs cache cv) =
        (files.filterMap (classifyMiss fs cache cv)).filter
          (fun m => readable fs m.1) := by
  intro files
  induction files with
  | nil => rfl
  | cons p rest ih =>
      cases hr : readable fs p with
      | true =>
          rw [List.filter_cons_of_pos hr, List.filterMap_cons,
            List.filterMap_cons]
          cases hc : classifyMiss fs cache cv p with
          | none => exact ih
          | some m =>
              have hm : m.1 = p := classifyMiss_fst fs cache cv p m hc
              rw [List.filter_cons_of_pos (by rw [hm]; exact hr), ih]
      | false =>
          rw [List.filter_cons_of_neg (by simp [hr]), List.filterMap_cons]
          cases hc : classifyMiss fs cache cv p with
          | none => exact ih
          | some m =>
              have hm : m.1 = p := classifyMiss_fst fs cache cv p m hc
              rw [List.filter_cons_of_neg (by simp [hm, hr]), ih]

theorem phase3Step_ms_eq (fs : FSModel) (loc : Int) (s : Phase3St)
    (m : String × Int × Int) :
    (phase3Step fs loc s m).ms =
      mergeList s.ms (processFileForCache fs loc m.1).1 := rfl

theorem phase3_ms_filter (fs : FSModel) (loc : Int) :
    ∀ (M : List (String × Int × Int)),
      (∀ m ∈ M, readable fs m.1 = false → fs.openFile m.1 = none) →
      ∀ (s₁ s₂ : Phase3St), s₁.ms = s₂.ms →
        (M.foldl (phase3Step fs loc) s₁).ms =
          ((M.filter (fun m => readable fs m.1)).foldl
            (phase3Step fs loc) s₂).ms := by
  intro M
  induction M with
  | nil => intro _ s₁ s₂ h; exact h
  | cons m rest ih =>
      intro H s₁ s₂ hms
      cases hr : readable fs m.1 with
      | true =>
          have hf : List.filter (fun q => readable fs q.1) (m :: rest) =
              m :: List.filter (fun q => readable fs q.1) rest := by
            simp [List.filter_cons, hr]
          rw [hf, List.foldl_cons, List.foldl_cons]
          refine ih (fun q hq => H q (List.mem_cons_of_mem m hq)) _ _ ?_
          rw [phase3Step_ms_eq, phase3Step_ms_eq, hms]
      | false =>
          have hf : List.filter (fun q => readable fs q.1) (m :: rest) =
              List.filter (fun q => readable fs q.1) rest := by
            simp [List.filter_cons, hr]
          rw [hf, List.foldl_cons]
          refine ih (fun q hq => H q (List.mem_cons_of_mem m hq)) _ _ ?_
          rw [phase3Step_ms_eq]
          have hopen : fs.openFile m.1 = none :=
            H m (List.mem_cons_self m rest) hr
          show (mergeList s₁.ms (processFileForCache fs loc m.1).1) = s₂.ms
          rw [show processFileForCache fs loc m.1 = ([], ⟨0, 0, 0⟩) by
            unfold processFileForCache; rw [hopen]]
          exact hms

/-- C9 counterexample: file `"a"` cannot be opened, yet its cached records
are reused because it is a valid cache hit (hits never open the file), so
the run's record set is not the record set over the readable files alone. -/
theorem c9_unreadable_counterexample :
    let e₀ : EntryData := ⟨"k:1", "2025-01-01", "m", 1, 0, 0, 0⟩
    let fs : FSModel := ⟨fun p => if p = "a" then some (1, 1) else none,
      fun _ => none, fun _ => none, fun _ => ([], [])⟩
    let cache : CacheFile := ⟨2, "UTC", [("a", ⟨1, 1, [e₀]⟩)], [], 0⟩
    fs.openFile "a" = none ∧
    readable fs "a" = false ∧
    (processWithCacheLoaded fs 0 ["a"] cache true).entries = [e₀] ∧
    (processWithCacheLoaded fs 0 (["a"].filter (readable fs)) cache
      true).entries = [] := by
  exact ⟨rfl, rfl, rfl, rfl⟩

/-- C9 (amended): a file whose open fails parses to zero records and zero
counters with no error signal; and provided no unopenable file is a valid
cache hit (a hit reuses cached records without opening the file), the
merged record set of the run equals the merged record set of the run over
the readable files alone. -/
theorem c9_unreadable_zero_records_amended (fs : FSModel) (loc : Int)
    (files : List String) (cache : CacheFile) (cv : Bool) :
    (∀ path, fs.openFile path = none →
      processFileForCache fs loc path = ([], ⟨0, 0, 0⟩)) ∧
    ((∀ p ∈ files, fs.openFile p = none → isHitFile fs cache cv p = false) →
      (processWithCacheLoaded fs loc files cache cv).entries =
        (processWithCacheLoaded fs loc (files.filter (readable fs)) cache
          cv).entries) := by
  constructor
  · intro path h
    unfold processFileForCache
    rw [h]
  · intro H
    have hms : (phase1 fs cache cv files).ms =
        (phase1 fs cache cv (files.filter (readable fs))).ms :=
      phase1_ms_filter fs cache cv files H _ _ rfl
    have hmq : (phase1 fs cache cv (files.filter (readable fs))).missQ =
        ((phase1 fs cache cv files).missQ).filter
          (fun m => readable fs m.1) := by
      rw [phase1_missQ, phase1_missQ, filterMap_classify_filter]
    have hopen : ∀ m ∈ (phase1 fs cache cv files).missQ,
        readable fs m.1 = false → fs.openFile m.1 = none := by
      intro m hm hr
      rw [phase1_missQ] at hm
      obtain ⟨q, _, hcq⟩ := List.mem_filterMap.mp hm
      have hq : m.1 = q := classifyMiss_fst fs cache cv q m hcq
      have hst : (fs.statFile m.1).isSome = true :=
        hq ▸ classifyMiss_stat_isSome fs cache cv q m hcq
      unfold readable at hr
      rcases Bool.and_eq_false_iff.mp hr with h | h
      · rw [hst] at h; cases h
      · exact Option.not_isSome_iff_eq_none.mp (by simp [h])
    show ((phase1 fs cache cv files).missQ.foldl (phase3Step fs loc)
        ⟨(phase1 fs cache cv files).ms, cache, 0⟩).ms.entries = _
    have h3 := phase3_ms_filter fs loc (phase1 fs cache cv files).missQ hopen
      ⟨(phase1 fs cache cv files).ms, cache, 0⟩
      ⟨(phase1 fs cache cv (files.filter (readable fs))).ms, cache, 0⟩
      (by simpa using hms)
    rw [h3, ← hmq]
    rfl

/-- C9 witness: a concrete run with one unopenable, non-hit file; its
parse is empty and the record sets with and without it agree. -/
theorem c9_unreadable_zero_records_amended_witness :
    let fs : FSModel := ⟨fun p => if p = "a" then some (1, 1) else none,
      fun _ => none, fun _ => none, fun _ => ([], [])⟩
    let cache : CacheFile := ⟨2, "UTC", [], [], 0⟩
    processFileForCache fs 0 "b" = ([], ⟨0, 0, 0⟩) ∧
    (processWithCacheLoaded fs 0 ["a"] cache true).entries =
      (processWithCacheLoaded fs 0 (["a"].filter (readable fs)) cache
        true).entries := by
  intro fs cache
  have h := c9_unreadable_zero_records_amended fs 0 ["a"] cache true
  refine ⟨h.1 "b" rfl, h.2 ?_⟩
  intro p hp _
  rw [List.mem_singleton.mp hp]
  rfl

theorem get?_append_l {α : Type} (l₁ l₂ : List α) (n : Nat) (a : α)
    (h : l₁.get? n = some a) : (l₁ ++ l₂).get? n = some a := by
  induction l₁ generalizing n with
  | nil => simp [List.get?] at h
  | cons x t ih =>
      cases n with
      | zero => simpa using h
      | succ k => simpa using ih k (by simpa using h)

theorem get?_self_append {α : Type} (l : List α) (a : α) :
    (l ++ [a]).get? l.length = some a := by
  induction l with
  | nil => rfl
  | cons x t ih => exact ih

theorem extend_trans {α : Type} {a b c : List α}
    (h₁ : ∃ r, b = a ++ r) (h₂ : ∃ r, c = b ++ r) : ∃ r, c = a ++ r := by
  obtain ⟨r₁, hr₁⟩ := h₁
  obtain ⟨r₂, hr₂⟩ := h₂
  exact ⟨r₁ ++ r₂, by rw [hr₂, hr₁, List.append_assoc]⟩

theorem tableIdx_get (t : List String) (s : String) :
    ∀ i, tableIdx t s = some i → t.get? i = some s := by
  induction t with
  | nil => intro i h; simp [tableIdx] at h
  | cons x rest ih =>
      intro i h
      unfold tableIdx at h
      by_cases hx : (x == s) = true
      · rw [if_pos hx] at h
        cases h
        simpa using (beq_iff_eq.mp hx)
      · rw [if_neg hx] at h
        obtain ⟨j, hj, hij⟩ := Option.map_eq_some'.mp h
        subst hij
        simpa using ih j hj

theorem intern_fst_ext (t : List String) (s : String) :
    ∃ r, (intern t s).1 = t ++ r := by
  unfold intern
  cases h : tableIdx t s with
  | none => exact ⟨[s], rfl⟩
  | some i => exact ⟨[], (List.append_nil t).symm⟩

theorem intern_get (t : List String) (s : String) :
    0 ≤ (intern t s).2 ∧
      (intern t s).1.get? (intern t s).2.toNat = some s := by
  unfold intern
  cases h : tableIdx t s with
  | some i =>
      refine ⟨Int.natCast_nonneg i, ?_⟩
      simp only [Int.toNat_natCast]
      exact tableIdx_get t s i h
  | none =>
      refine ⟨Int.natCast_nonneg t.length, ?_⟩
      simp only [Int.toNat_natCast]
      exact get?_self_append t s

theorem deintern_of_get (u : List String) (i : Int) (s : String)
    (h₀ : 0 ≤ i) (h : u.get? i.toNat = some s) : deintern u i = s := by
  unfold deintern
  rw [if_pos h₀, h]
  rfl

theorem encodeEntry_ext (t : List String) (e : EntryData) :
    ∃ r, (encodeEntry t e).1 = t ++ r := by
  unfold encodeEntry
  exact extend_trans (intern_fst_ext t e.date)
    (intern_fst_ext (intern t e.date).1 e.model)

theorem encodeEntry_decode (t u : List String) (e : EntryData)
    (hu : ∃ r, u = (encodeEntry t e).1 ++ r) :
    decodeEntry u (encodeEntry t e).2 = e := by
  obtain ⟨hd₀, hdget⟩ := intern_get t e.date
  obtain ⟨hm₀, hmget⟩ := intern_get (intern t e.date).1 e.model
  obtain ⟨r₂, h₂⟩ := intern_fst_ext (intern t e.date).1 e.model
  obtain ⟨r, hr⟩ := hu
  have hr₁ : u = (intern (intern t e.date).1 e.model).1 ++ r := hr
  have hdate : u.get? (intern t e.date).2.toNat = some e.date := by
    rw [hr₁, h₂]
    exact get?_append_l _ _ _ _ (get?_append_l _ _ _ _ hdget)
  have hmodel :
      u.get? (intern (intern t e.date).1 e.model).2.toNat = some e.model := by
    rw [hr₁]
    exact get?_append_l _ _ _ _ hmget
  show decodeEntry u ⟨e.key, (intern t e.date).2,
    (intern (intern t e.date).1 e.model).2, e.inputTokens, e.outputTokens,
    e.cacheCreationTokens, e.cacheReadTokens⟩ = e
  unfold decodeEntry
  rw [deintern_of_get u _ _ hd₀ hdate, deintern_of_get u _ _ hm₀ hmodel]

theorem encodeEntries_ext :
    ∀ (es : List EntryData) (t : List String),
      ∃ r, (encodeEntries t es).1 = t ++ r := by
  intro es
  induction es with
  | nil => intro t; exact ⟨[], (List.append_nil t).symm⟩
  | cons e es ih =>
      intro t
      exact extend_trans (encodeEntry_ext t e) (ih (encodeEntry t e).1)

theorem encodeEntries_decode :
    ∀ (es : List EntryData) (t u : List String),
      (∃ r, u = (encodeEntries t es).1 ++ r) →
      ((encodeEntries t es).2).map (decodeEntry u) = es := by
  intro es
  induction es with
  | nil => intro t u _; rfl
  | cons e es ih =>
      intro t u hu
      show decodeEntry u (encodeEntry t e).2 ::
        ((encodeEntries (encodeEntry t e).1 es).2).map (decodeEntry u) =
        e :: es
      rw [ih (encodeEntry t e).1 u hu,
        encodeEntry_decode t u e
          (extend_trans (encodeEntries_ext es (encodeEntry t e).1) hu)]

theorem encodeFiles_ext :
    ∀ (fl : List (String × FileCacheEntry)) (t : List String),
      ∃ r, (encodeFiles t fl).1 = t ++ r := by
  intro fl
  induction fl with
  | nil => intro t; exact ⟨[], (List.append_nil t).symm⟩
  | cons pf rest ih =>
      intro t
      obtain ⟨path, fe⟩ := pf
      exact extend_trans (encodeEntries_ext fe.entries t)
        (ih (encodeEntries t fe.entries).1)

theorem encodeFiles_decode :
    ∀ (fl : List (String × FileCacheEntry)) (t u : List String),
      (∃ r, u = (encodeFiles t fl).1 ++ r) →
      ((encodeFiles t fl).2).map (fun pf => (pf.1, decodeFile u pf.2)) = fl := by
  intro fl
  induction fl with
  | nil => intro t u _; rfl
  | cons pf rest ih =>
      intro t u hu
      obtain ⟨path, fe⟩ := pf
      show (path, decodeFile u ⟨fe.modTime, fe.size,
          (encodeEntries t fe.entries).2⟩) ::
        ((encodeFiles (encodeEntries t fe.entries).1 rest).2).map
          (fun pf => (pf.1, decodeFile u pf.2)) = (path, fe) :: rest
      rw [ih (encodeEntries t fe.entries).1 u hu]
      unfold decodeFile
      rw [encodeEntries_decode fe.entries t u
        (extend_trans (encodeFiles_ext rest (encodeEntries t fe.entries).1) hu)]

/-- C2: decoding the bytes produced by encoding any snapshot whose version
is the current format version yields exactly the same snapshot — the same
file-entry map (paths, modTimes, sizes, record lists with identical keys,
dates, models and token counts), the same directory manifest, the same
last-full-walk timestamp and the same timezone label; the empty snapshot
is the special case `files = dirs = []`. -/
theorem c2_codec_roundtrip (c : CacheFile) (hv : c.version = CacheVersion) :
    decodeCache (encodeCache c) = some c := by
  unfold encodeCache decodeCache
  rw [if_pos ⟨rfl, rfl⟩]
  have ht₀ : intern [] c.timezone = ([c.timezone], (0 : Int)) := rfl
  obtain ⟨r, hr⟩ := encodeFiles_ext c.files (intern [] c.timezone).1
  have htab : (encodeFiles (intern [] c.timezone).1 c.files).1 =
      c.timezone :: r := by
    rw [hr, ht₀]
    rfl
  have hfiles := encodeFiles_decode c.files (intern [] c.timezone).1
    (encodeFiles (intern [] c.timezone).1 c.files).1
    ⟨[], (List.append_nil _).symm⟩
  obtain ⟨ver, tz, fl, dirs, lfw⟩ := c
  simp only at hv hfiles htab ⊢
  rw [htab] at hfiles ⊢
  simp only [hfiles, hv]

/-- C2 witness: a concrete non-trivial snapshot (two records sharing a
date, so the interner reuses an index) and the empty snapshot both
round-trip. -/
theorem c2_codec_roundtrip_witness :
    let e₁ : EntryData := ⟨"k:1", "2025-01-01", "ma", 1, 2, 3, 4⟩
    let e₂ : EntryData := ⟨"k:2", "2025-01-01", "mb", 5, 6, 7, 8⟩
    let c : CacheFile :=
      ⟨2, "CET", [("p.jsonl", ⟨10, 20, [e₁, e₂]⟩)], [("d", 3)], 99⟩
    let c₀ : CacheFile := ⟨2, "CET", [], [], 0⟩
    decodeCache (encodeCache c) = some c ∧
    decodeCache (encodeCache c₀) = some c₀ := by
  intro e₁ e₂ c c₀
  exact ⟨c2_codec_roundtrip c (by decide), c2_codec_roundtrip c₀ (by decide)⟩

/-- C5 counterexample: when the final rename fails, `saveCache` returns an
error — the rewrite of the current-format cache failed, `cache.bin` was
never written — yet the legacy file has already been removed (the
`os.Remove` at `main.go` line 485 precedes the `os.Rename` at line 487). -/
theorem c5_legacy_removal_counterexample :
    let w : CacheWorld := ⟨true, none, none⟩
    let f : SaveFailures := ⟨false, false, false, true⟩
    let c : CacheFile := ⟨2, "UTC", [], [], 0⟩
    (saveCacheRun c w f).2 = false ∧
    (saveCacheRun c w f).1.legacyPresent = false ∧
    (saveCacheRun c w f).1.cacheBin = none := by
  exact ⟨rfl, rfl, rfl⟩

/-- C5 (amended): the legacy cache file is deleted exactly when the
new-format payload has been successfully written to the temporary file —
a failure of mkdir, of encoding, or of the temp write leaves the world
(legacy file included) untouched and returns an error — but the deletion
happens before the final rename, so a failed rename leaves the legacy
file already removed while the save as a whole fails; the save succeeds
iff all four steps succeed. -/
theorem c5_legacy_removal_amended (c : CacheFile) (w : CacheWorld)
    (f : SaveFailures) :
    ((f.mkdirFails = true ∨ f.encodeFails = true ∨ f.writeTmpFails = true) →
      (saveCacheRun c w f).1 = w ∧ (saveCacheRun c w f).2 = false) ∧
    ((saveCacheRun c w f).1.legacyPresent = false ↔
      (f.mkdirFails = false ∧ f.encodeFails = false ∧
        f.writeTmpFails = false) ∨ w.legacyPresent = false) ∧
    ((saveCacheRun c w f).2 = true ↔
      f.mkdirFails = false ∧ f.encodeFails = false ∧
        f.writeTmpFails = false ∧ f.renameFails = false) := by
  obtain ⟨m, e, t, r⟩ := f
  cases m <;> cases e <;> cases t <;> cases r <;>
    simp [saveCacheRun]

/-- C5 witness: a failed temp write leaves the legacy file in place and
returns an error. -/
theorem c5_legacy_removal_amended_witness :
    let w : CacheWorld := ⟨true, none, none⟩
    let f : SaveFailures := ⟨false, false, true, false⟩
    let c : CacheFile := ⟨2, "UTC", [], [], 0⟩
    (saveCacheRun c w f).1 = w ∧ (saveCacheRun c w f).2 = false := by
  intro w f c
  exact (c5_legacy_removal_amended c w f).1 (Or.inr (Or.inr rfl))

theorem charsLt_asymm : ∀ a b : List Char, charsLt a b = true → charsLt b a = false := by
  intro a
  induction a with
  | nil =>
      intro b h
      cases b with
      | nil => simp [charsLt] at h
      | cons y bs => simp [charsLt]
  | cons x as ih =>
      intro b h
      cases b with
      | nil => simp [charsLt] at h
      | cons y bs =>
          simp only [charsLt] at h ⊢
          by_cases hxy : x < y
          · have hyx : ¬ y < x := fun hc => absurd hxy (lt_asymm hc)
            simp [hxy, hyx]
          · by_cases hyx : y < x
            · simp [hxy, hyx] at h
            · simp only [hxy, hyx, if_false] at h ⊢
              exact ih bs h

theorem strLe_of_not_le (x y : String) (h : strLe x y = false) :
    strLe y x = true := by
  unfold strLe strLt at h ⊢
  have h₂ : charsLt y.data x.data = true := by
    cases hb : charsLt y.data x.data
    · rw [hb] at h
      exact Bool.noConfusion h
    · rfl
  simp [charsLt_asymm _ _ h₂]

theorem sorted_insert_aux (x : String) :
    ∀ (l : List String) (y : String), strSorted (y :: l) = true →
      strLe x y = false → strSorted (y :: orderedInsertStr x l) = true := by
  intro l
  induction l with
  | nil =>
      intro y _ hxy
      simp [orderedInsertStr, strSorted, strLe_of_not_le x y hxy]
  | cons z rest ih =>
      intro y hs hxy
      have hs₁ : strLe y z = true ∧ strSorted (z :: rest) = true := by
        simpa [strSorted, Bool.and_eq_true] using hs
      by_cases hxz : strLe x z = true
      · simp [orderedInsertStr, hxz, strSorted, hs₁.1, hs₁.2,
          strLe_of_not_le x y hxy]
      · have hxz₂ : strLe x z = false := by
          simpa [Bool.not_eq_true] using hxz
        have hrec := ih z hs₁.2 hxz₂
        simp only [orderedInsertStr, hxz₂, Bool.false_eq_true, if_false]
        show (strLe y z && strSorted (z :: orderedInsertStr x rest)) = true
        rw [hs₁.1, hrec]
        rfl

theorem strSorted_insert (x : String) (l : List String)
    (h : strSorted l = true) : strSorted (orderedInsertStr x l) = true := by
  cases l with
  | nil => rfl
  | cons y rest =>
      by_cases hxy : strLe x y = true
      · simpa [orderedInsertStr, hxy, strSorted] using h
      · have hxy₂ : strLe x y = false := by
          simpa [Bool.not_eq_true] using hxy
        simp only [orderedInsertStr, hxy₂, Bool.false_eq_true, if_false]
        exact sorted_insert_aux x rest y h hxy₂

theorem sortStrings_sorted : ∀ l : List String,
    strSorted (sortStrings l) = true := by
  intro l
  induction l with
  | nil => rfl
  | cons x rest ih => exact strSorted_insert x (sortStrings rest) ih

theorem orderedInsertStr_perm (x : String) :
    ∀ l : List String, (orderedInsertStr x l).Perm (x :: l) := by
  intro l
  induction l with
  | nil => exact List.Perm.refl _
  | cons y rest ih =>
      by_cases hxy : strLe x y = true
      · simp [orderedInsertStr, hxy]
      · have hxy₂ : strLe x y = false := by
          simpa [Bool.not_eq_true] using hxy
        simp only [orderedInsertStr, hxy₂, Bool.false_eq_true, if_false]
        exact (ih.cons y).trans (List.Perm.swap x y rest)

theorem sortStrings_perm : ∀ l : List String, (sortStrings l).Perm l := by
  intro l
  induction l with
  | nil => exact List.Perm.refl _
  | cons x rest ih =>
      exact (orderedInsertStr_perm x (sortStrings rest)).trans (ih.cons x)

theorem sortStrings_nodup (l : List String) (h : l.Nodup) :
    (sortStrings l).Nodup := (sortStrings_perm l).nodup_iff.mpr h

theorem addSet_nodup (s : List String) (x : String) (h : s.Nodup) :
    (addSet s x).Nodup := by
  unfold addSet
  by_cases hc : s.contains x = true
  · rw [if_pos hc]
    exact h
  · rw [if_neg hc]
    have hx : x ∉ s := by
      intro hmem
      exact hc (List.elem_eq_true_of_mem hmem)
    rw [List.nodup_append]
    exact ⟨h, List.nodup_singleton x, by
      intro a ha hax
      simp only [List.mem_singleton] at hax
      exact hx (hax ▸ ha)⟩

theorem foldl_addSet_nodup :
    ∀ (xs : List String) (s : List String), s.Nodup →
      (xs.foldl addSet s).Nodup := by
  intro xs
  induction xs with
  | nil => intro s h; exact h
  | cons x rest ih => intro s h; exact ih (addSet s x) (addSet_nodup s x h)

theorem foldl_cachedFileStep_nodup (u : List String) :
    ∀ (fl : List (String × FileCacheEntry)) (s : List String), s.Nodup →
      (fl.foldl (cachedFileStep u) s).Nodup := by
  intro fl
  induction fl with
  | nil => intro s h; exact h
  | cons pf rest ih =>
      intro s h
      refine ih _ ?_
      unfold cachedFileStep
      by_cases hc : u.contains (dirOf pf.1) = true
      · rw [if_pos hc]
        exact addSet_nodup s pf.1 h
      · rw [if_neg hc]
        exact h

theorem warmFileSet_nodup (fs : FSModel) (c : CacheFile) :
    (warmFileSet fs c).Nodup := by
  unfold warmFileSet
  generalize minimalRoots (warmScan fs c).changedRoots = roots
  have hbase : (c.files.foldl
      (cachedFileStep (warmScan fs c).unchangedDirs) []).Nodup :=
    foldl_cachedFileStep_nodup _ c.files [] (List.nodup_nil)
  revert hbase
  generalize c.files.foldl (cachedFileStep (warmScan fs c).unchangedDirs) [] = base
  intro hbase
  induction roots generalizing base with
  | nil => exact hbase
  | cons r rest ih =>
      exact ih _ (foldl_addSet_nodup (fs.walkFS r).1 base hbase)

theorem andE {a b : Bool} (h : (a && b) = true) : a = true ∧ b = true := by
  cases a <;> cases b <;> first | exact ⟨rfl, rfl⟩ | exact Bool.noConfusion h

theorem pathData (p n : String) :
    (p ++ "/" ++ n).data = p.data ++ '/' :: n.data := by
  have hsl : "/".data = ['/'] := by decide
  rw [String.data_append, String.data_append, hsl]
  simp

theorem seg_cancel :
    ∀ (a b r s : List Char),
      (∀ c ∈ a, c ≠ '/') → (∀ c ∈ b, c ≠ '/') →
      (r = [] ∨ ∃ u, r = '/' :: u) → (s = [] ∨ ∃ u, s = '/' :: u) →
      a ++ r = b ++ s → a = b := by
  intro a
  induction a with
  | nil =>
      intro b r s _ hb hr hs h
      cases b with
      | nil => rfl
      | cons y bs =>
          exfalso
          rcases hr with hre | ⟨u, hru⟩
          · subst hre
            simp at h
          · subst hru
            simp only [List.nil_append, List.cons_append,
              List.cons.injEq] at h
            exact absurd h.1.symm (hb y (by simp))
  | cons x as ih =>
      intro b r s ha hb hr hs h
      cases b with
      | nil =>
          exfalso
          rcases hs with hse | ⟨u, hsu⟩
          · subst hse
            simp at h
          · subst hsu
            simp only [List.nil_append, List.cons_append,
              List.cons.injEq] at h
            exact absurd h.1 (ha x (by simp))
      | cons y bs =>
          simp only [List.cons_append, List.cons.injEq] at h
          rw [h.1, ih bs r s (fun c hc => ha c (by simp [hc]))
            (fun c hc => hb c (by simp [hc])) hr hs h.2]

theorem goodName_chars (n : String) (h : goodName n = true) :
    ∀ c ∈ n.data, c ≠ '/' := by
  unfold goodName at h
  intro c hc
  have h₂ := (andE h).2
  have h₃ := List.all_eq_true.mp h₂ c hc
  simpa using h₃

theorem underPath_data (base q : String) (p n : String)
    (hb : base = p ++ "/" ++ n) (h : underPath base q) :
    ∃ r, q.data = p.data ++ '/' :: (n.data ++ r) ∧
      (r = [] ∨ ∃ u, r = '/' :: u) := by
  subst hb
  rcases h with h | ⟨u, hu⟩
  · refine ⟨[], ?_, Or.inl rfl⟩
    rw [h, pathData]
    simp
  · refine ⟨'/' :: u, ?_, Or.inr ⟨u, rfl⟩⟩
    rw [hu, pathData]
    simp

theorem underPath_disjoint (p n₁ n₂ q : String)
    (hg₁ : goodName n₁ = true) (hg₂ : goodName n₂ = true) (hne : n₁ ≠ n₂)
    (h₁ : underPath (p ++ "/" ++ n₁) q) (h₂ : underPath (p ++ "/" ++ n₂) q) :
    False := by
  obtain ⟨r₁, hq₁, hr₁⟩ := underPath_data _ q p n₁ rfl h₁
  obtain ⟨r₂, hq₂, hr₂⟩ := underPath_data _ q p n₂ rfl h₂
  have h := hq₁.symm.trans hq₂
  have h₃ : n₁.data ++ r₁ = n₂.data ++ r₂ := by
    have := List.append_cancel_left h
    exact List.cons.inj this |>.2
  have : n₁.data = n₂.data :=
    seg_cancel n₁.data n₂.data r₁ r₂ (goodName_chars n₁ hg₁)
      (goodName_chars n₂ hg₂) hr₁ hr₂ h₃
  exact hne (String.ext this)

mutual
theorem walkNode_under (p : String) (t : FTree) :
    ∀ q ∈ (walkNode p t).1, underPath p q := by
  cases t with
  | file n =>
      intro q hq
      unfold walkNode at hq
      by_cases hp : strEndsWith p ".jsonl" = true
      · rw [if_pos hp] at hq
        simp only [List.mem_singleton] at hq
        exact Or.inl hq
      · rw [if_neg hp] at hq
        simp at hq
  | dir n m cs =>
      intro q hq
      unfold walkNode at hq
      obtain ⟨c, _, hc⟩ := walkList_under p cs q hq
      rcases hc with hc | ⟨u, hu⟩
      · exact Or.inr ⟨(FTree.name c).data, by rw [hc, pathData]⟩
      · refine Or.inr ⟨(FTree.name c).data ++ '/' :: u, ?_⟩
        rw [hu, pathData]
        simp

theorem walkList_under (p : String) (cs : List FTree) :
    ∀ q ∈ (walkList p cs).1,
      ∃ c ∈ cs, underPath (p ++ "/" ++ FTree.name c) q := by
  cases cs with
  | nil =>
      intro q hq
      simp [walkList] at hq
  | cons c rest =>
      intro q hq
      unfold walkList at hq
      simp only [List.mem_append] at hq
      rcases hq with hq | hq
      · exact ⟨c, by simp, walkNode_under _ c q hq⟩
      · obtain ⟨c₂, hc₂, hu⟩ := walkList_under p rest q hq
        exact ⟨c₂, by simp [hc₂], hu⟩
end

theorem wfTree_goodName (t : FTree) (h : wfTree t = true) :
    goodName (FTree.name t) = true := by
  cases t with
  | file n => exact h
  | dir n m cs =>
      unfold wfTree at h
      exact (andE (andE h).1).1

theorem wfList_mem (cs : List FTree) (h : wfList cs = true) :
    ∀ c ∈ cs, wfTree c = true := by
  induction cs with
  | nil => intro c hc; simp at hc
  | cons x rest ih =>
      intro c hc
      unfold wfList at h
      obtain ⟨hx, hrest⟩ := andE h
      rcases List.mem_cons.mp hc with hc | hc
      · exact hc ▸ hx
      · exact ih hrest c hc

theorem namesNodup_head (n : String) (rest : List String)
    (h : namesNodup (n :: rest) = true) :
    n ∉ rest ∧ namesNodup rest = true := by
  unfold namesNodup at h
  obtain ⟨h₁, h₂⟩ := andE h
  refine ⟨?_, h₂⟩
  intro hmem
  have hc : rest.contains n = true := List.elem_eq_true_of_mem hmem
  rw [hc] at h₁
  exact Bool.noConfusion h₁

mutual
theorem walkNode_nodup (p : String) (t : FTree) (h : wfTree t = true) :
    (walkNode p t).1.Nodup := by
  cases t with
  | file n =>
      unfold walkNode
      by_cases hp : strEndsWith p ".jsonl" = true
      · rw [if_pos hp]
        exact List.nodup_singleton p
      · rw [if_neg hp]
        exact List.nodup_nil
  | dir n m cs =>
      unfold wfTree at h
      exact walkList_nodup p cs (andE (andE h).1).2 (andE h).2

theorem walkList_nodup (p : String) (cs : List FTree)
    (hn : namesNodup (cs.map FTree.name) = true) (hw : wfList cs = true) :
    (walkList p cs).1.Nodup := by
  cases cs with
  | nil => exact List.nodup_nil
  | cons c rest =>
      unfold walkList
      obtain ⟨hcw, hrw⟩ := andE hw
      obtain ⟨hnin, hnrest⟩ := namesNodup_head _ _ (by simpa using hn)
      rw [List.nodup_append]
      refine ⟨walkNode_nodup _ c hcw, walkList_nodup p rest hnrest hrw, ?_⟩
      intro q hq₁ hq₂
      obtain ⟨c₂, hc₂, hu₂⟩ := walkList_under p rest q hq₂
      exact underPath_disjoint p (FTree.name c) (FTree.name c₂) q
        (wfTree_goodName c hcw)
        (wfTree_goodName c₂ (wfList_mem rest hrw c₂ hc₂))
        (fun he => hnin (he ▸ List.mem_map_of_mem FTree.name hc₂))
        (walkNode_under _ c q hq₁) hu₂
end

/-- C6 counterexample: a real directory layout on which the full-walk
branch returns an unsorted list.  `WalkDir` visits `r`'s entries in
lexical order `a`, `a.b.jsonl` and descends depth-first, emitting
`r/a/c.jsonl` before `r/a.b.jsonl`; but as strings
`"r/a.b.jsonl" < "r/a/c.jsonl"` (`'.' < '/'`), and the full-walk branch
returns the walk order without sorting (`main.go` line 130, contrast the
`sort.Strings` of the warm branch at line 191). -/
theorem c6_discovery_sorted_counterexample :
    let t : FTree := FTree.dir "r" 0
      [FTree.dir "a" 0 [FTree.file "c.jsonl"], FTree.file "a.b.jsonl"]
    (findJSONLFiles (treeFS "r" t) 0 "r" none).1 =
      ["r/a/c.jsonl", "r/a.b.jsonl"] ∧
    strSorted ["r/a/c.jsonl", "r/a.b.jsonl"] = false := by
  exact ⟨by decide, by decide⟩

/-- C6 (amended): the warm (manifest-based) discovery returns a list that
is sorted ascending and duplicate-free, for every filesystem and cache;
the full-walk branch returns the `WalkDir` output unchanged — in
depth-first walk order, not sorted in general — and that output is
duplicate-free for every well-formed directory tree. -/
theorem c6_discovery_sorted_amended :
    (∀ (fs : FSModel) (now : Int) (dir : String) (c : CacheFile),
      ¬(c.dirs.isEmpty = true ∨ fullWalkInterval < now - c.lastFullWalk) →
      strSorted (findJSONLFiles fs now dir (some c)).1 = true ∧
        (findJSONLFiles fs now dir (some c)).1.Nodup) ∧
    (∀ (now : Int) (root : String) (t : FTree), wfTree t = true →
      (findJSONLFiles (treeFS root t) now root none).1 = (walkNode root t).1 ∧
        (walkNode root t).1.Nodup) := by
  constructor
  · intro fs now dir c h
    have hwarm : (findJSONLFiles fs now dir (some c)).1 =
        sortStrings (warmFileSet fs c) := by
      simp only [findJSONLFiles]
      rw [if_neg h]
    rw [hwarm]
    exact ⟨sortStrings_sorted _,
      sortStrings_nodup _ (warmFileSet_nodup fs c)⟩
  · intro now root t hwf
    constructor
    · show ((treeFS root t).walkFS root).1 = (walkNode root t).1
      unfold treeFS
      simp
    · exact walkNode_nodup root t hwf

/-- C6 witness: a concrete warm run (sorted, duplicate-free) and a
concrete well-formed tree (duplicate-free walk). -/
theorem c6_discovery_sorted_amended_witness :
    let c : CacheFile := ⟨2, "UTC", [], [("d", 5)], 0⟩
    let fs : FSModel :=
      ⟨fun _ => none, fun _ => none, fun _ => none, fun _ => ([], [])⟩
    let t : FTree := FTree.dir "r" 0
      [FTree.dir "a" 0 [FTree.file "c.jsonl"], FTree.file "a.b.jsonl"]
    (strSorted (findJSONLFiles fs 0 "x" (some c)).1 = true ∧
      (findJSONLFiles fs 0 "x" (some c)).1.Nodup) ∧
    ((findJSONLFiles (treeFS "r" t) 0 "r" none).1 = (walkNode "r" t).1 ∧
      (walkNode "r" t).1.Nodup) := by
  intro c fs t
  exact ⟨c6_discovery_sorted_amended.1 fs 0 "x" c (by decide),
    c6_discovery_sorted_amended.2 0 "r" t (by decide)⟩

theorem setKey_mem {α : Type} (l : List (String × α)) (k : String) (v : α)
    (pe : String × α) (h : pe ∈ setKey l k v) : pe.1 = k ∨ pe ∈ l := by
  induction l with
  | nil =>
      simp only [setKey, List.mem_singleton] at h
      left
      rw [h]
  | cons x t ih =>
      obtain ⟨k₁, v₁⟩ := x
      by_cases hx : (k₁ == k) = true
      · rw [show setKey ((k₁, v₁) :: t) k v = (k, v) :: t by
          simp [setKey, hx]] at h
        rcases List.mem_cons.mp h with h | h
        · left; rw [h]
        · right; exact List.mem_cons_of_mem _ h
      · rw [show setKey ((k₁, v₁) :: t) k v = (k₁, v₁) :: setKey t k v by
          simp [setKey, hx]] at h
        rcases List.mem_cons.mp h with h | h
        · right; rw [h]; exact List.mem_cons_self _ _
        · rcases ih h with h | h
          · left; exact h
          · right; exact List.mem_cons_of_mem _ h

theorem setKey_mem_rev {α : Type} (l : List (String × α)) (k : String)
    (v : α) (pe : String × α) (h : pe ∈ l) (hne : pe.1 ≠ k) :
    pe ∈ setKey l k v := by
  induction l with
  | nil => simp at h
  | cons x t ih =>
      obtain ⟨k₁, v₁⟩ := x
      by_cases hx : (k₁ == k) = true
      · rw [show setKey ((k₁, v₁) :: t) k v = (k, v) :: t by
          simp [setKey, hx]]
        rcases List.mem_cons.mp h with h | h
        · exfalso
          apply hne
          rw [h]
          exact beq_iff_eq.mp hx
        · exact List.mem_cons_of_mem _ h
      · rw [show setKey ((k₁, v₁) :: t) k v = (k₁, v₁) :: setKey t k v by
          simp [setKey, hx]]
        rcases List.mem_cons.mp h with h | h
        · rw [h]; exact List.mem_cons_self _ _
        · exact List.mem_cons_of_mem _ (ih h)

theorem phase3_files_mem (fs : FSModel) (loc : Int) :
    ∀ (M : List (String × Int × Int)) (s : Phase3St)
      (pe : String × FileCacheEntry),
      pe ∈ (M.foldl (phase3Step fs loc) s).cache.files →
      pe.1 ∈ M.map Prod.fst ∨ pe ∈ s.cache.files := by
  intro M
  induction M with
  | nil => intro s pe h; exact Or.inr h
  | cons m rest ih =>
      intro s pe h
      rw [List.foldl_cons] at h
      rcases ih _ pe h with h | h
      · left
        exact List.mem_cons_of_mem _ h
      · rcases setKey_mem _ _ _ _ h with h | h
        · left
          rw [h]
          exact List.mem_cons_self _ _
        · right
          exact h

theorem phase3_files_mem_rev (fs : FSModel) (loc : Int) :
    ∀ (M : List (String × Int × Int)) (s : Phase3St)
      (pe : String × FileCacheEntry),
      pe ∈ s.cache.files → pe.1 ∉ M.map Prod.fst →
      pe ∈ (M.foldl (phase3Step fs loc) s).cache.files := by
  intro M
  induction M with
  | nil => intro s pe h _; exact h
  | cons m rest ih =>
      intro s pe h hnot
      rw [List.foldl_cons]
      refine ih _ pe ?_ (fun hmem => hnot (List.mem_cons_of_mem _ hmem))
      exact setKey_mem_rev _ _ _ pe h
        (fun he => hnot (he ▸ List.mem_cons_self _ _))

theorem missQ_fst_mem_files (fs : FSModel) (cache : CacheFile) (cv : Bool)
    (files : List String) (x : String)
    (h : x ∈ (phase1 fs cache cv files).missQ.map Prod.fst) : x ∈ files := by
  rw [phase1_missQ] at h
  obtain ⟨m, hm, hx⟩ := List.mem_map.mp h
  obtain ⟨q, hq, hcq⟩ := List.mem_filterMap.mp hm
  rw [← hx, classifyMiss_fst fs cache cv q m hcq]
  exact hq

theorem notEmpty_iff {α : Type} (l : List α) : (!l.isEmpty) = true ↔ l ≠ [] := by
  cases l <;> simp

theorem filter_ne_nil_iff {α : Type} (p : α → Bool) (l : List α) :
    l.filter p ≠ [] ↔ ∃ a ∈ l, p a = true := by
  constructor
  · intro h
    cases hf : l.filter p with
    | nil => exact absurd hf h
    | cons x xs =>
        have hx : x ∈ l.filter p := by
          rw [hf]
          exact List.mem_cons_self _ _
        obtain ⟨hmem, hp⟩ := List.mem_filter.mp hx
        exact ⟨x, hmem, hp⟩
  · rintro ⟨a, ha, hp⟩ h
    have hx : a ∈ l.filter p := List.mem_filter.mpr ⟨ha, hp⟩
    rw [h] at hx
    exact List.not_mem_nil a hx

theorem not_contains_iff (l : List String) (x : String) :
    ((!l.contains x) = true) ↔ x ∉ l := by
  constructor
  · intro h hmem
    have hc : l.contains x = true := List.elem_eq_true_of_mem hmem
    rw [hc] at h
    exact Bool.noConfusion h
  · intro h
    cases hc : l.contains x
    · rfl
    · exact absurd (List.mem_of_elem_eq_true hc) h

theorem removed_exists_iff (fs : FSModel) (loc : Int) (files : List String)
    (cache : CacheFile) (cv : Bool) :
    (∃ pe ∈ ((phase1 fs cache cv files).missQ.foldl (phase3Step fs loc)
        ⟨(phase1 fs cache cv files).ms, cache, 0⟩).cache.files,
      pe.1 ∉ files) ↔
    (∃ pe ∈ cache.files, pe.1 ∉ files) := by
  constructor
  · rintro ⟨pe, hmem, hnot⟩
    rcases phase3_files_mem fs loc _ _ pe hmem with h | h
    · exact absurd (missQ_fst_mem_files fs cache cv files pe.1 h) hnot
    · exact ⟨pe, h, hnot⟩
  · rintro ⟨pe, hmem, hnot⟩
    refine ⟨pe, phase3_files_mem_rev fs loc _ _ pe hmem ?_, hnot⟩
    intro hin
    exact hnot (missQ_fst_mem_files fs cache cv files pe.1 hin)

theorem procResult_dirty_iff (fs : FSModel) (loc : Int)
    (files : List String) (cache : CacheFile) (cv : Bool) :
    (processWithCacheLoaded fs loc files cache cv).dirty = true ↔
      (cv = false ∨
        (processWithCacheLoaded fs loc files cache cv).missQ ≠ [] ∨
        ∃ pe ∈ cache.files, pe.1 ∉ files) := by
  have hmq : (processWithCacheLoaded fs loc files cache cv).missQ =
      (phase1 fs cache cv files).missQ := rfl
  rw [hmq]
  show ((!cv || !(phase1 fs cache cv files).missQ.isEmpty) ||
      !((((phase1 fs cache cv files).missQ.foldl (phase3Step fs loc)
          ⟨(phase1 fs cache cv files).ms, cache, 0⟩).cache.files.filter
        (fun pe => !(files.contains pe.1))).isEmpty)) = true ↔ _
  rw [Bool.or_eq_true, Bool.or_eq_true]
  have h1 : ((!cv) = true) ↔ (cv = false) := by cases cv <;> simp
  have h2 := notEmpty_iff (phase1 fs cache cv files).missQ
  have h3 : ((!((((phase1 fs cache cv files).missQ.foldl (phase3Step fs loc)
      ⟨(phase1 fs cache cv files).ms, cache, 0⟩).cache.files.filter
        (fun pe => !(files.contains pe.1))).isEmpty)) = true) ↔
      ∃ pe ∈ cache.files, pe.1 ∉ files := by
    rw [notEmpty_iff, filter_ne_nil_iff, ← removed_exists_iff fs loc files cache cv]
    constructor
    · rintro ⟨a, ha, hp⟩
      exact ⟨a, ha, (not_contains_iff files a.1).mp hp⟩
    · rintro ⟨a, ha, hp⟩
      exact ⟨a, ha, (not_contains_iff files a.1).mpr hp⟩
  rw [h1, h2, h3, or_assoc]

theorem or3_decide_iff (a b : Bool) (n : Nat) :
    ((a || b || decide (0 < n)) = true) ↔
      (a = true ∨ b = true ∨ 0 < n) := by
  simp [Bool.or_eq_true, decide_eq_true_eq, or_assoc]

/-- C7 counterexample: a fully warm cache whose last full walk is older
than the five-minute safety interval.  Discovery performs a full walk,
every file is a hit, nothing changed — the dirty flag is false and the
directory manifest is unchanged — yet the run persists the cache, because
the persistence condition (`main.go` line 852) also fires on
`dStats.fullWalk`. -/
theorem c7_dirty_persist_counterexample :
    let c : CacheFile := ⟨2, "UTC", [("r/a.jsonl", ⟨1, 1, []⟩)], [("r", 5)], 0⟩
    let fs : FSModel := ⟨fun p => if p = "r/a.jsonl" then some (1, 1) else none,
      fun p => if p = "r" then some 5 else none, fun _ => none,
      fun p => if p = "r" then (["r/a.jsonl"], [("r", 5)]) else ([], [])⟩
    let r := runMain fs 0 "UTC" (fullWalkInterval + 1) "r" (some c)
    r.persisted = true ∧ r.dirty = false ∧ r.cacheFinal.dirs = c.dirs := by
  exact ⟨by decide, by decide, by decide⟩

/-- C7 (amended): the dirty flag is set iff the cache was invalid at
start, at least one file was a miss, or some file cached at the start of
processing is no longer among the discovered files; and the cache is
persisted iff the dirty flag is set, discovery performed a full walk, or
warm discovery found at least one changed directory (a full walk persists
even when the manifest content is unchanged, refreshing the walk
timestamp). -/
theorem c7_dirty_persist_amended (fs : FSModel) (loc : Int) (tz : String)
    (now : Int) (rootDir : String) (loaded : Option CacheFile) :
    ((runMain fs loc tz now rootDir loaded).dirty = true ↔
      (cacheValidOf loaded tz = false ∨
        (runMain fs loc tz now rootDir loaded).missQ ≠ [] ∨
        ∃ pe ∈ (runMain fs loc tz now rootDir loaded).cacheStart.files,
          pe.1 ∉ (runMain fs loc tz now rootDir loaded).files)) ∧
    ((runMain fs loc tz now rootDir loaded).persisted = true ↔
      ((runMain fs loc tz now rootDir loaded).dirty = true ∨
        (runMain fs loc tz now rootDir loaded).dStats.fullWalk = true ∨
        0 < (runMain fs loc tz now rootDir loaded).dStats.dirsChanged)) := by
  constructor
  · exact procResult_dirty_iff fs loc _ _ _
  · exact or3_decide_iff _ _ _
